import Mathlib

/-!
Verification development for the `momentum` tensor-compiler core.

The definitions below are a shallow embedding of the Rust sources:
  * `src/tensor.rs`   — `Shape`, `Layout`, `Tensor`
  * `src/graph.rs`    — `Graph`, `ExprBody`, `ExprInfo`, the construction API
  * `src/wgpu/compiler.rs` — `WgpuStep`, `WgpuPlan`, `WgpuCompiler::compile`
  * `src/wgpu/kernel.rs`   — the tera context built by `elemwise`
  * `src/wgpu/expr.rs`     — `WgpuExpr` and its `Display`

Machine integers (`usize`, `u32`) are modelled as `Nat`; the one place the
code casts to `u32` (`expr.layout.elements() as u32`) is modelled with an
explicit `% 2^32`.  Fallible code paths (Rust index/`unwrap`/`todo!` panics)
are modelled with `Option`, `none` standing for a fault.

The crate in `src/` is mid-refactor: `graph.rs` is an older revision of the
graph module (it stores a usage multiset `usages : HashMap<ExprId, usize>`
and only `Op::{Add, Mul}`), while `wgpu/compiler.rs` is written against a
newer graph module (with `last_usages()`, `ExprBody::{Op, Input, Const}` and
`Op::{Elemwise, Reduce, Movement}`) that is not part of the source tree.
Definitions for those missing parts are marked `Modelled from the spec:`;
everything else is translated from the files that are present.
-/

namespace Momentum

/- `ExprId` from `graph.rs` is a newtype over `usize`; it is modelled as a
plain `Nat` throughout this development. -/

/-- `Shape` from `tensor.rs`: dimension sizes plus per-dimension strides. -/
structure Shape where
  dims : List Nat
  strides : List Nat
deriving DecidableEq, Repr

/-- `Shape::contiguous` from `tensor.rs`: strides are
`(1..dims.len()).map(|start_dim| dims[start_dim..].iter().product()).chain(iter::once(1))`. -/
def Shape.contiguous (dims : List Nat) : Shape :=
  { dims := dims
    strides := ((List.range' 1 (dims.length - 1)).map (fun startDim => (dims.drop startDim).prod)) ++ [1] }

/-- `Shape::elements` from `tensor.rs`: `self.dims().iter().product()`. -/
def Shape.elements (s : Shape) : Nat := s.dims.prod

/-- `Shape::rank` from `tensor.rs`. -/
def Shape.rank (s : Shape) : Nat := s.dims.length

/-- `Shape::elements` from the older `graph.rs` module:
`self.dimensions().iter().copied().reduce(Mul::mul).unwrap()` — the
`reduce` returns `None` on an empty dimension list, so the `unwrap` faults
(modelled as `none`) on a rank-0 shape. -/
def Shape.elementsReduce (dims : List Nat) : Option Nat :=
  match dims with
  | [] => none
  | d :: ds => some (ds.foldl (· * ·) d)

/-- `Layout` from `tensor.rs`: wraps a `Shape`. -/
structure Layout where
  shape : Shape
deriving DecidableEq, Repr

instance : Inhabited Layout := ⟨⟨⟨[], []⟩⟩⟩

/-- The `From<[usize; N]> for Shape` conversion chain: contiguous construction. -/
def Layout.ofDims (dims : List Nat) : Layout := ⟨Shape.contiguous dims⟩

/-- `Layout::scalar` from `tensor.rs`: `Self::from([])`. -/
def Layout.scalar : Layout := Layout.ofDims []

/-- `Layout::dims`. -/
def Layout.dims (l : Layout) : List Nat := l.shape.dims

/-- `Layout::strides`. -/
def Layout.strides (l : Layout) : List Nat := l.shape.strides

/-- `Layout::elements`. -/
def Layout.elements (l : Layout) : Nat := l.shape.elements

/-- `Layout::size` from `tensor.rs`: `self.elements() * mem::size_of::<f32>()`. -/
def Layout.size (l : Layout) : Nat := l.elements * 4

/-- `Layout::reshape` from `tensor.rs`: replaces the shape outright. -/
def Layout.reshape (_l : Layout) (shape : Shape) : Layout := ⟨shape⟩

/-- `Tensor` from `tensor.rs`: a flat `f32` buffer plus its `Layout`. -/
structure Tensor where
  data : List Float
  layout : Layout

/-- `ElemwiseOp`: the elementwise operation family matched by
`wgpu/compiler.rs` (`ElemwiseOp::{Add, Mul, Sin}`).  The revision of
`graph.rs` that declares it is not in the source tree. -/
inductive ElemwiseOp where
  | add
  | mul
  | sin
deriving DecidableEq, Repr

/-- Modelled from the spec: `Reduce { op: Sum|Max, ... }` — the declaring
graph-module revision is missing from the source tree; only
`wgpu/compiler.rs` (which leaves its lowering `todo!()`) names it. -/
inductive ReduceOp where
  | sum
  | max
deriving DecidableEq, Repr

/-- Modelled from the spec: `Movement (Reshape(target_shape) | Transpose |
Squeeze)` — the declaring graph-module revision is missing from the source
tree; only `wgpu/compiler.rs` matches on `Op::Movement(_)`. -/
inductive MovementOp where
  | reshape (shape : Shape)
  | transpose
  | squeeze
deriving DecidableEq, Repr

/-- `Op`: the operation families matched by `wgpu/compiler.rs`
(`Op::{Elemwise, Reduce, Movement}`). -/
inductive Op where
  | elemwise (op : ElemwiseOp)
  | reduce (op : ReduceOp) (dims : List Nat)
  | movement (op : MovementOp)
deriving DecidableEq, Repr

/-- Swap the last two entries of a list (identity below length 2). -/
def swapLastTwo {α : Type} (l : List α) : List α :=
  match l.reverse with
  | a :: b :: rest => (b :: a :: rest).reverse
  | _ => l

/-- Modelled from the spec: `Transpose` swaps the two innermost dimension
sizes and their strides. -/
def Shape.transposed (s : Shape) : Shape :=
  { dims := swapLastTwo s.dims, strides := swapLastTwo s.strides }

/-- Modelled from the spec: `Squeeze` drops every dimension whose size is 1,
keeping the corresponding strides paired, preserving order. -/
def Shape.squeezed (s : Shape) : Shape :=
  let pairs := (s.dims.zip s.strides).filter (fun p => p.1 ≠ 1)
  { dims := pairs.map Prod.fst, strides := pairs.map Prod.snd }

/-- Modelled from the spec: `Reduce`'s output layout is the input layout with
each listed dimension's size forced to 1; all other dimensions and all
strides unchanged. -/
def Shape.reduced (s : Shape) (rdims : List Nat) : Shape :=
  { dims := (s.dims.enum).map (fun p => if p.1 ∈ rdims then 1 else p.2)
    strides := s.strides }

/-- The movement ops' layout transformations.  `Reshape` is
`Layout::reshape` from `tensor.rs`; `Transpose` and `Squeeze` are modelled
from the spec. -/
def MovementOp.apply : MovementOp → Layout → Layout
  | .reshape s, l => l.reshape s
  | .transpose, l => ⟨l.shape.transposed⟩
  | .squeeze, l => ⟨l.shape.squeezed⟩

/-- `Op::infer_layout`.  For elemwise ops this is `children[0].clone()` as in
`graph.rs` (out-of-bounds indexing on an empty child list is a fault,
modelled by `none`); the Reduce and Movement rules are modelled from the
spec (their declaring module is missing from the source tree). -/
def Op.inferLayout : Op → List Layout → Option Layout
  | .elemwise _, ls => ls.head?
  | .reduce _ rdims, ls => ls.head?.map (fun l => ⟨l.shape.reduced rdims⟩)
  | .movement m, ls => ls.head?.map m.apply

/-- `ExprBody` from `graph.rs`.  The newer graph module's `Input(Layout)`
corresponds to `varTensor layout true` and its `Const(Tensor)` to
`constTensor`. -/
inductive ExprBody where
  | op (op : Op) (children : List Nat)
  | varTensor (layout : Layout) (input : Bool)
  | constTensor (tensor : Tensor)

/-- `ExprInfo` from `graph.rs`: the expression, the usage multiset
(`HashMap<ExprId, usize>`, modelled as an association list in insertion
order) and the inferred layout. -/
structure ExprInfo where
  expression : ExprBody
  usages : List (Nat × Nat)
  layout : Layout

/-- `Graph` from `graph.rs`. -/
structure Graph where
  inputs : List Nat
  expressions : List ExprInfo
  outputs : List Nat

/-- `Graph::new`. -/
def Graph.new : Graph := ⟨[], [], []⟩

/-- The `HashMap::entry(user).and_modify(+1).or_insert(1)` update from
`Graph::add_usage`. -/
def addUsageEntry (us : List (Nat × Nat)) (user : Nat) : List (Nat × Nat) :=
  if us.any (fun p => p.1 == user) then
    us.map (fun p => if p.1 == user then (p.1, p.2 + 1) else p)
  else
    us ++ [(user, 1)]

/-- `Graph::add_usage`: `self[expr].usages.entry(user)...`.  Indexing a
non-existent node faults (modelled by `none`). -/
def Graph.addUsage (g : Graph) (expr user : Nat) : Option Graph :=
  match g.expressions[expr]? with
  | none => none
  | some info =>
      some { g with
        expressions := g.expressions.set expr { info with usages := addUsageEntry info.usages user } }

/-- `iter().map(f).collect()` over fallible element accesses: all-or-fault. -/
def mapOption {α β : Type} (f : α → Option β) : List α → Option (List β)
  | [] => some []
  | a :: t => (f a).bind (fun b => (mapOption f t).map (fun r => b :: r))

/-- `Graph::add_expr_untracked`: infer the layout (indexing children — a
fault on a dangling id or an empty child list) and push the node with an
empty usage map. -/
def Graph.addExprUntracked (g : Graph) (expression : ExprBody) : Option Graph := do
  let layout ←
    match expression with
    | .op op children => do
        let childLayouts ← mapOption (fun c => (g.expressions[c]?).map (·.layout)) children
        op.inferLayout childLayouts
    | .varTensor layout _ => some layout
    | .constTensor tensor => some tensor.layout
  some { g with expressions := g.expressions ++ [⟨expression, [], layout⟩] }

/-- `Graph::add_expr`: record usages (op nodes) or the input id (inputs),
then push the node; returns the new node's id
(`ExprId::from(self.expressions.len())`). -/
def Graph.addExpr (g : Graph) (expr : ExprBody) : Option (Graph × Nat) := do
  let id := g.expressions.length
  let g ←
    match expr with
    | .op _ children => children.foldlM (fun g c => g.addUsage c id) g
    | .varTensor _ input => some (if input then { g with inputs := g.inputs ++ [id] } else g)
    | .constTensor _ => some g
  let g ← g.addExprUntracked expr
  some (g, id)

/-- `Graph::add_input`. -/
def Graph.addInput (g : Graph) (layout : Layout) : Option (Graph × Nat) :=
  g.addExpr (.varTensor layout true)

/-- `Graph::add_variable`. -/
def Graph.addVariable (g : Graph) (layout : Layout) : Option (Graph × Nat) :=
  g.addExpr (.varTensor layout false)

/-- `Graph::add_constant`. -/
def Graph.addConstant (g : Graph) (tensor : Tensor) : Option (Graph × Nat) :=
  g.addExpr (.constTensor tensor)

/-- `Graph::add_op`. -/
def Graph.addOp (g : Graph) (op : Op) (children : List Nat) : Option (Graph × Nat) :=
  g.addExpr (.op op children)

/-- `Graph::add_output`. -/
def Graph.addOutput (g : Graph) (expr : Nat) : Graph :=
  { g with outputs := g.outputs ++ [expr] }

/-- One call of the public graph-construction API. -/
inductive BuildStep where
  | input (layout : Layout)
  | var (layout : Layout)
  | const (tensor : Tensor)
  | op (op : Op) (children : List Nat)
  | output (expr : Nat)

/-- Apply one public-API call to a graph. -/
def Graph.applyStep (g : Graph) : BuildStep → Option Graph
  | .input l => (g.addInput l).map Prod.fst
  | .var l => (g.addVariable l).map Prod.fst
  | .const t => (g.addConstant t).map Prod.fst
  | .op op children => (g.addOp op children).map Prod.fst
  | .output e => some (g.addOutput e)

/-- A graph built through the public construction API: the sequence of calls,
starting from `Graph::new`, all of which succeed. -/
def build (steps : List BuildStep) : Option Graph :=
  steps.foldlM Graph.applyStep Graph.new

/-- Modelled from the spec: `Graph::last_usages` is called by
`wgpu/compiler.rs` but absent from the in-tree `graph.rs` (an older
revision).  Per the spec a node's last usage is initialized to its own id
and overwritten by each younger consumer, i.e. it equals the maximum id
among the recorded consumers (the keys of its usage map), or the node's own
id when that map is empty. -/
def ExprInfo.lastUsage (selfId : Nat) (info : ExprInfo) : Nat :=
  match info.usages.map Prod.fst with
  | [] => selfId
  | u :: us => us.foldl Nat.max u

/-- `graph.last_usages()`: one entry per node. -/
def Graph.lastUsages (g : Graph) : List Nat :=
  g.expressions.enum.map (fun p => p.2.lastUsage p.1)

/-- `WgpuOp` from `wgpu/expr.rs`. -/
inductive WgpuOp where
  | add
  | mul
  | sin
  | var (name : String)
deriving DecidableEq, Repr

/-- `WgpuExpr` from `wgpu/expr.rs`. -/
inductive WgpuExpr where
  | mk (op : WgpuOp) (children : List WgpuExpr)

/-- `WgpuExpr::new_var`. -/
def WgpuExpr.newVar (name : String) : WgpuExpr := .mk (.var name) []

mutual

/-- `Display for WgpuExpr` from `wgpu/expr.rs`: `Add`/`Mul` print
`({children[0]}) op ({children[1]})` (faulting — `none` — when a child is
missing), `Sin` prints `sin(...)` over all children joined by `", "`, and
`Var` prints its name. -/
def WgpuExpr.render : WgpuExpr → Option String
  | .mk (.var v) _ => some v
  | .mk .add (a :: b :: _) =>
      a.render.bind (fun sa => b.render.map (fun sb => s!"({sa}) + ({sb})"))
  | .mk .add _ => none
  | .mk .mul (a :: b :: _) =>
      a.render.bind (fun sa => b.render.map (fun sb => s!"({sa}) * ({sb})"))
  | .mk .mul _ => none
  | .mk .sin cs =>
      (WgpuExpr.renderList cs).map
        (fun parts =>
          let sep := ", "
          let joined := String.intercalate sep parts
          s!"sin({joined})")

/-- `children.iter().map(ToString::to_string)` over a child list. -/
def WgpuExpr.renderList : List WgpuExpr → Option (List String)
  | [] => some []
  | e :: es => e.render.bind (fun s => (WgpuExpr.renderList es).map (fun parts => s :: parts))

end

/-- `LayoutInfo` from `wgpu/kernel.rs`. -/
structure LayoutInfo where
  elements : Nat
  strides : List Nat
  dims : List Nat
deriving DecidableEq, Repr

/-- `LayoutInfo::new`. -/
def LayoutInfo.ofLayout (l : Layout) : LayoutInfo := ⟨l.elements, l.strides, l.dims⟩

/-- The tera `Context` built by `elemwise` in `wgpu/kernel.rs`:
`workgroup_size_x`, the name→layout table (each operand under
`input_{id}` plus the `output` entry), the list of input names, and the
rendered expression. -/
structure KernelCtx where
  workgroupSizeX : Nat
  layouts : List (String × LayoutInfo)
  inputs : List String
  expr : String
deriving DecidableEq, Repr

/-- Operand name `input_{id}` as formatted by `wgpu/kernel.rs`. -/
def inputName (id : Nat) : String := s!"input_{id}"

/-- `elemwise` from `wgpu/kernel.rs`, up to the tera rendering: the context
it inserts.  The `layouts` argument stands for the entries of the
`HashMap<ExprId, &Layout>` **in the order the map enumerates them** — that
order is chosen by the hasher at run time, not by the map's contents.
Rendering the operand expression (`expr.to_string()`) faults when an
`Add`/`Mul` node lacks its two children. -/
def kernelElemwiseCtx (workgroupSizeX : Nat) (outputLayout : Layout)
    (layouts : List (Nat × Layout)) (expr : WgpuExpr) : Option KernelCtx :=
  (expr.render).map (fun exprStr =>
    { workgroupSizeX := workgroupSizeX
      layouts := (layouts.map (fun p => (inputName p.1, LayoutInfo.ofLayout p.2)))
                   ++ [("output", LayoutInfo.ofLayout outputLayout)]
      inputs := layouts.map (fun p => inputName p.1)
      expr := exprStr })

/-- One `name : binding` declaration line of the rendered kernel. -/
def renderBindingLine (p : Nat × String) : String :=
  let idx := p.1
  let name := p.2
  s!"binding {idx} : {name};"

/-- One per-operand strided-offset line of the rendered kernel. -/
def renderOffsetLine (p : String × LayoutInfo) : String :=
  let name := p.1
  let strides := String.intercalate " " (p.2.strides.map toString)
  s!"offset {name} strides {strides};"

/-- Modelled from the spec: the tera template `elemwise.wgsl.tera` is not in
the source tree.  Per the spec the generated kernel binds one buffer per
name positionally (the output, then the context's input-name list in
order), recomputes each operand's offset from that operand's own strides,
and applies the scalar expression; the text below stands in for the missing
template and reflects exactly that — in particular the binding-declaration
lines appear in the order of the context's input-name list. -/
def renderElemwise (ctx : KernelCtx) : String :=
  let header := s!"workgroup_size_x {ctx.workgroupSizeX};"
  let bindingLines := (("output" :: ctx.inputs).enum).map renderBindingLine
  let offsetLines := ctx.layouts.map renderOffsetLine
  let body := s!"output = {ctx.expr};"
  String.intercalate "\n" ([header] ++ bindingLines ++ offsetLines ++ [body])

/-- `WgpuStep` from `wgpu/compiler.rs`. -/
inductive WgpuStep where
  | allocate (id : Nat) (tensor : Tensor)
  | deallocate (id : Nat)
  | execute (output : Nat) (source : String) (workgroups : List Nat)
      (inputs : List Nat) (inputsLayout : List (Nat × Bool))

/-- `WgpuPlan` from `wgpu/compiler.rs`. -/
structure WgpuPlan where
  inputs : List Nat
  steps : List WgpuStep
  outputs : List Nat
  outputLayouts : List Layout

/-- The `ElemwiseOp → WgpuOp` match inside `compile`. -/
def ElemwiseOp.toWgpu : ElemwiseOp → WgpuOp
  | .add => .add
  | .mul => .mul
  | .sin => .sin

/-- The operand expression `compile` builds: the op applied to one
`elem_input_{id}` variable per child. -/
def wgpuExprFor (op : ElemwiseOp) (children : List Nat) : WgpuExpr :=
  .mk op.toWgpu (children.map (fun c => WgpuExpr.newVar s!"elem_input_{c}"))

/-- The three `Vec`s `compile` pushes into while walking the nodes. -/
structure CompileState where
  steps : List WgpuStep
  layouts : List Layout
  aliases : List Nat

/-- `u32::div_ceil` (the divisor — the workgroup size — is nonzero in every
use; division by zero is not modelled). -/
def divCeil (a b : Nat) : Nat := (a + b - 1) / b

/-- The loop body of `WgpuCompiler::compile` for one node:
  * `Op`/`Movement`: the `continue` inside the `source:` field expression
    abandons the `Execute` struct literal, so no step is pushed and the
    deallocate-emission loop is skipped; the arm itself pushes the child's
    raw id (`children[0]`, a fault when absent) into `aliases` and the
    node's post-movement layout into `layouts`.
  * `Op`/`Reduce`: `todo!()` — a fault, modelled as `none`.
  * `Op`/`Elemwise`: push the `Execute` step (kernel context over each
    child's resolved layout `layouts[child]`, workgroups
    `[(elements as u32).div_ceil(wgx), 1, 1]`, inputs `id :: children`,
    layout/size pairs), then one `Deallocate(child)` per child occurrence
    with `last_usages[child] == id`.
  * `Input`: no step.  * `Const`: push `Allocate`.
All arms but Movement then push the self-alias and the node's layout. -/
def compileNode (wgx : Nat) (lastUsages : List Nat) (id : Nat) (info : ExprInfo)
    (st : CompileState) : Option CompileState :=
  match info.expression with
  | .op (.movement _) children =>
      (children[0]?).map (fun c0 =>
        { st with aliases := st.aliases ++ [c0], layouts := st.layouts ++ [info.layout] })
  | .op (.reduce _ _) _ => none
  | .op (.elemwise e) children => do
      let childLayouts ← mapOption (fun c => st.layouts[c]?) children
      let ctx ← kernelElemwiseCtx wgx info.layout (children.zip childLayouts) (wgpuExprFor e children)
      let ex := WgpuStep.execute id (renderElemwise ctx)
        [divCeil (info.layout.elements % 4294967296) wgx, 1, 1]
        (id :: children)
        ((info.layout.size, false) :: childLayouts.map (fun l => (l.size, true)))
      let deallocs := children.filter (fun c => lastUsages.getD c 0 == id)
      some { steps := st.steps ++ [ex] ++ deallocs.map WgpuStep.deallocate
             aliases := st.aliases ++ [id]
             layouts := st.layouts ++ [info.layout] }
  | .varTensor _ _ =>
      some { st with aliases := st.aliases ++ [id], layouts := st.layouts ++ [info.layout] }
  | .constTensor t =>
      some { steps := st.steps ++ [WgpuStep.allocate id t]
             aliases := st.aliases ++ [id]
             layouts := st.layouts ++ [info.layout] }

/-- The `for (id, expr) in (0..).map(ExprId).zip(graph.exprs)` loop. -/
def compileLoop (wgx : Nat) (lastUsages : List Nat) :
    Nat → List ExprInfo → CompileState → Option CompileState
  | _, [], st => some st
  | id, info :: rest, st => do
      let st' ← compileNode wgx lastUsages id info st
      compileLoop wgx lastUsages (id + 1) rest st'

/-- `Vec::remove` (shifts the tail left; out of bounds is a fault). -/
def removeAt {α : Type} : List α → Nat → Option (α × List α)
  | [], _ => none
  | a :: as, 0 => some (a, as)
  | a :: as, n + 1 => (removeAt as n).map (fun p => (p.1, a :: p.2))

/-- `graph.outputs.iter().rev().map(|id| layouts.remove(id.0)).collect()`:
iterate the given (already reversed) output list, removing each position
from the shrinking layout vector, collecting in iteration order. -/
def collectOutputLayouts (layouts : List Layout) : List Nat → Option (List Layout × List Layout)
  | [] => some ([], layouts)
  | o :: os => do
      let pr ← removeAt layouts o
      let rest ← collectOutputLayouts pr.2 os
      some (pr.1 :: rest.1, rest.2)

/-- `WgpuCompiler` from `wgpu/compiler.rs` (`workgroup_size_x`, default 256). -/
structure WgpuCompiler where
  workgroupSizeX : Nat

/-- `Default for WgpuCompiler`. -/
def WgpuCompiler.default : WgpuCompiler := ⟨256⟩

/-- `WgpuCompiler::compile` from `wgpu/compiler.rs`: walk the nodes in id
order accumulating steps/layouts/aliases, then build the plan — the output
layouts by reverse-order `Vec::remove`, the outputs by `aliases[id]`
(a fault when out of range). -/
def WgpuCompiler.compile (self : WgpuCompiler) (g : Graph) : Option WgpuPlan := do
  let lastUsages := g.lastUsages
  let st ← compileLoop self.workgroupSizeX lastUsages 0 g.expressions ⟨[], [], []⟩
  let pr ← collectOutputLayouts st.layouts g.outputs.reverse
  let outputs ← mapOption (fun o => st.aliases[o]?) g.outputs
  some { inputs := g.inputs, steps := st.steps, outputs := outputs, outputLayouts := pr.1 }

/-! ## Shape/Layout algebra (C9) -/

/-- The contiguous-shape invariants that actually hold on `Shape::contiguous`
for a given dimension list. -/
def ContiguousSpec (dims : List Nat) : Prop :=
  (Shape.contiguous dims).dims.length = (Shape.contiguous dims).strides.length ∧
  (Shape.contiguous dims).elements = dims.prod ∧
  (∀ i, i < dims.length → (Shape.contiguous dims).strides[i]? = some ((dims.drop (i + 1)).prod)) ∧
  (Shape.contiguous []).dims = [] ∧ (Shape.contiguous []).strides = [1] ∧
  Shape.elementsReduce [] = none

/-- C9 (counterexample): the claim asserts the rank-0 contiguous shape has
empty dims **and empty strides** with `dims.len() == strides.len()`; but
`Shape::contiguous(\x5b\x5d)` chains `iter::once(1)` unconditionally, so the
rank-0 shape has `strides == [1]` and the two lengths differ. -/
theorem contiguous_rank0_cx :
    (Shape.contiguous []).dims = [] ∧ (Shape.contiguous []).strides = [1] ∧
    ¬ (Shape.contiguous []).dims.length = (Shape.contiguous []).strides.length := by
  decide

/-- C9 (amended): for a nonempty dimension list, `dims.len() == strides.len()`,
`elements()` is the product of the dims, and `strides[i]` is the product of
`dims[i+1..]` (so the innermost stride is 1); `elements()` returns the
product (empty product = 1) for every `tensor.rs` shape, but the rank-0
contiguous shape has `strides == [1]` (not `[]`), and the older
`graph.rs` `elements()` (`reduce(Mul::mul).unwrap()`) faults on rank 0. -/
theorem contiguous_spec (dims : List Nat) (h : dims ≠ []) : ContiguousSpec dims := by
  have hn : 1 ≤ dims.length := by
    cases dims with
    | nil => exact absurd rfl h
    | cons a l => exact Nat.succ_le_succ (Nat.zero_le _)
  refine ⟨?_, rfl, ?_, rfl, rfl, rfl⟩
  · simp only [Shape.contiguous, List.length_append, List.length_map, List.length_range',
      List.length_cons, List.length_nil]
    omega
  · intro i hi
    simp only [Shape.contiguous]
    by_cases hlt : i < dims.length - 1
    · rw [List.getElem?_append, if_pos (by simp only [List.length_map, List.length_range']; omega)]
      rw [List.getElem?_map]
      rw [List.getElem?_range' _ _ hlt]
      simp [Nat.add_comm 1 i]
    · have hi' : i = dims.length - 1 := by omega
      rw [List.getElem?_append, if_neg (by simp only [List.length_map, List.length_range']; omega)]
      simp only [List.length_map, List.length_range', hi']
      simp only [Nat.sub_self, List.getElem?_cons_zero]
      have hdrop : dims.drop (dims.length - 1 + 1) = [] := by
        apply List.drop_eq_nil_of_le
        omega
      rw [hdrop]
      rfl

/-- C9 witness: the amended invariants evaluated at dims `[2, 3]`. -/
theorem contiguous_spec_witness : ([2, 3] : List Nat) ≠ [] ∧ ContiguousSpec [2, 3] :=
  ⟨by decide, contiguous_spec [2, 3] (by decide)⟩

/-! ## Kernel-generation determinism (C7)

`elemwise` receives its operand layouts as a `HashMap<ExprId, &Layout>` and
iterates it (`layouts.iter()`, `layouts.keys()`); a Rust `HashMap`'s
iteration order is chosen by its per-instance hasher, not by its contents,
so two invocations on equal logical inputs may enumerate the operands in
different orders.  The enumeration order is the `layouts` list argument of
`kernelElemwiseCtx`; "equal inputs" means the two lists are permutations of
each other. -/

/-- A concrete two-operand enumeration order. -/
def c7order1 : List (Nat × Layout) := [(0, Layout.scalar), (1, Layout.ofDims [2])]

/-- The same operand map enumerated the other way round. -/
def c7order2 : List (Nat × Layout) := [(1, Layout.ofDims [2]), (0, Layout.scalar)]

/-- What survives re-enumerating the operand map: the workgroup size and the
rendered operand expression are unchanged, the input-name list and the
name→layout table are permuted, and the rendered source text itself is
unchanged whenever the map has at most one entry. -/
def KernelCtxPermSpec (wgx : Nat) (out : Layout) (l1 l2 : List (Nat × Layout))
    (e : WgpuExpr) : Prop :=
  ((kernelElemwiseCtx wgx out l1 e).map (fun c => c.workgroupSizeX))
    = ((kernelElemwiseCtx wgx out l2 e).map (fun c => c.workgroupSizeX)) ∧
  ((kernelElemwiseCtx wgx out l1 e).map (fun c => c.expr))
    = ((kernelElemwiseCtx wgx out l2 e).map (fun c => c.expr)) ∧
  (∀ c1 c2, kernelElemwiseCtx wgx out l1 e = some c1 →
    kernelElemwiseCtx wgx out l2 e = some c2 →
    c1.inputs.Perm c2.inputs ∧ c1.layouts.Perm c2.layouts) ∧
  (l1.length ≤ 1 →
    (kernelElemwiseCtx wgx out l1 e).map renderElemwise
      = (kernelElemwiseCtx wgx out l2 e).map renderElemwise)

/-- C7 (counterexample): two enumerations of the same two-operand map — a
permutation of each other, i.e. equal logical inputs — yield different
kernel contexts and different rendered source texts, so kernel generation
is not a function of the logical inputs alone. -/
theorem kernel_source_order_cx :
    c7order1.Perm c7order2 ∧
    ¬ (kernelElemwiseCtx 256 Layout.scalar c7order1 (wgpuExprFor .add [0, 1])).map renderElemwise
      = (kernelElemwiseCtx 256 Layout.scalar c7order2 (wgpuExprFor .add [0, 1])).map renderElemwise := by
  constructor
  · decide
  · decide

/-- C7 (amended): kernel generation is deterministic given the operand map's
enumeration order; across two enumerations of equal operand maps the
workgroup size and rendered expression agree and the input-name list and
layout table are permutations of each other, and the full source text
agrees whenever the operand map has at most one entry (hence always for
single-operand ops such as `Sin`). -/
theorem kernel_ctx_perm (wgx : Nat) (out : Layout) (l1 l2 : List (Nat × Layout))
    (e : WgpuExpr) (h : l1.Perm l2) : KernelCtxPermSpec wgx out l1 l2 e := by
  refine ⟨?_, ?_, ?_, ?_⟩
  · cases hr : e.render <;> simp [kernelElemwiseCtx, hr]
  · cases hr : e.render <;> simp [kernelElemwiseCtx, hr]
  · intro c1 c2 h1 h2
    cases hr : e.render with
    | none => rw [kernelElemwiseCtx, hr] at h1; exact absurd h1 (by simp)
    | some s =>
        rw [kernelElemwiseCtx, hr] at h1 h2
        simp only [Option.map_some', Option.some_inj] at h1 h2
        subst h1
        subst h2
        constructor
        · exact (h.map _)
        · exact List.Perm.append_right _ (h.map _)
  · intro hlen
    have heq : l1 = l2 := by
      cases l1 with
      | nil => exact List.Perm.nil_eq h
      | cons a t =>
          cases t with
          | nil => exact List.singleton_perm.mp h
          | cons b t2 => exact absurd hlen (by simp)
    rw [heq]

/-- C7 witness: the amended facts at the concrete two-operand enumeration
pair. -/
theorem kernel_ctx_perm_witness :
    c7order1.Perm c7order2 ∧
    KernelCtxPermSpec 256 Layout.scalar c7order1 c7order2 (wgpuExprFor .add [0, 1]) :=
  ⟨by decide, kernel_ctx_perm 256 Layout.scalar c7order1 c7order2 _ (by decide)⟩

/-! ## Graph-construction invariants (C4, C8, C10) -/

/-- How many times `n` occurs among the recorded children of node `u`. -/
def Graph.childCount (g : Graph) (n u : Nat) : Nat :=
  match g.expressions[u]? with
  | some info =>
      match info.expression with
      | .op _ ch => ch.count n
      | _ => 0
  | none => 0

/-- The nodes that list `n` as a direct child. -/
def Graph.consumersOf (g : Graph) (n : Nat) : List Nat :=
  (List.range g.expressions.length).filter (fun u => g.childCount n u != 0)

/-- The spec's description of a node's last usage: the maximum id among the
nodes that list `n` as a direct child, or `n` itself if no node consumes
it. -/
def lastUsageSpec (g : Graph) (n : Nat) : Nat :=
  match g.consumersOf n with
  | [] => n
  | u :: us => us.foldl Nat.max u

/-- The construction invariants of a graph built through the public API:
children precede their operation, every node's recorded usage keys are
duplicate-free, and a node is a recorded user of `n` exactly when it lists
`n` among its children. -/
structure GraphInv (g : Graph) : Prop where
  topo : ∀ (u : Nat) (info : ExprInfo), g.expressions[u]? = some info →
    ∀ (op : Op) (ch : List Nat), info.expression = .op op ch → ∀ c ∈ ch, c < u
  keysNodup : ∀ (n : Nat) (info : ExprInfo), g.expressions[n]? = some info →
    (info.usages.map Prod.fst).Nodup
  keysChar : ∀ (n : Nat) (info : ExprInfo), g.expressions[n]? = some info →
    ∀ u, u ∈ info.usages.map Prod.fst ↔ g.childCount n u ≠ 0

/-- `add_usage` on one in-range node, as a total function. -/
def Graph.bumpAt (g : Graph) (c id : Nat) : Graph :=
  match g.expressions[c]? with
  | some info =>
      { g with expressions := g.expressions.set c { info with usages := addUsageEntry info.usages id } }
  | none => g

/-- The cumulative effect of `add_expr`'s usage-recording loop. -/
def Graph.bumpAll (g : Graph) (id : Nat) : List Nat → Graph
  | [] => g
  | c :: cs => (g.bumpAt c id).bumpAll id cs

theorem addUsageEntry_keys (us : List (Nat × Nat)) (id : Nat) :
    (addUsageEntry us id).map Prod.fst =
      if id ∈ us.map Prod.fst then us.map Prod.fst else us.map Prod.fst ++ [id] := by
  by_cases h : id ∈ us.map Prod.fst
  · rw [if_pos h]
    have hany : us.any (fun p => p.1 == id) = true := by
      rw [List.any_eq_true]
      rcases List.mem_map.mp h with ⟨p, hp, hpe⟩
      exact ⟨p, hp, by simp [hpe]⟩
    rw [addUsageEntry, if_pos hany]
    rw [List.map_map]
    apply List.map_congr_left
    intro p _
    by_cases hpc : p.1 = id <;> simp [hpc]
  · rw [if_neg h]
    have hany : ¬ us.any (fun p => p.1 == id) = true := by
      rw [List.any_eq_true]
      rintro ⟨p, hp, hpe⟩
      exact h (List.mem_map.mpr ⟨p, hp, by simpa using hpe⟩)
    rw [addUsageEntry, if_neg hany]
    simp

theorem Graph.addUsage_eq_bumpAt (g : Graph) (c id : Nat)
    (h : c < g.expressions.length) : g.addUsage c id = some (g.bumpAt c id) := by
  rw [Graph.addUsage, Graph.bumpAt]
  split
  · rename_i heq
    exact absurd h (Nat.not_lt.mpr (List.getElem?_eq_none_iff.mp heq))
  · rename_i info heq
    rw [heq]

theorem Graph.addUsage_none (g : Graph) (c id : Nat)
    (h : ¬ c < g.expressions.length) : g.addUsage c id = none := by
  have he : g.expressions[c]? = none := List.getElem?_eq_none_iff.mpr (Nat.le_of_not_lt h)
  rw [Graph.addUsage, he]

theorem Graph.bumpAt_length (g : Graph) (c id : Nat) :
    (g.bumpAt c id).expressions.length = g.expressions.length := by
  rw [Graph.bumpAt]
  split <;> simp

theorem Graph.bumpAt_inputs (g : Graph) (c id : Nat) :
    (g.bumpAt c id).inputs = g.inputs := by
  rw [Graph.bumpAt]
  split <;> simp

theorem Graph.bumpAt_outputs (g : Graph) (c id : Nat) :
    (g.bumpAt c id).outputs = g.outputs := by
  rw [Graph.bumpAt]
  split <;> simp

theorem Graph.bumpAll_length (ch : List Nat) (g : Graph) (id : Nat) :
    (g.bumpAll id ch).expressions.length = g.expressions.length := by
  induction ch generalizing g with
  | nil => rfl
  | cons c cs ih => rw [Graph.bumpAll, ih, Graph.bumpAt_length]

theorem Graph.bumpAll_inputs (ch : List Nat) (g : Graph) (id : Nat) :
    (g.bumpAll id ch).inputs = g.inputs := by
  induction ch generalizing g with
  | nil => rfl
  | cons c cs ih => rw [Graph.bumpAll, ih, Graph.bumpAt_inputs]

theorem Graph.bumpAll_outputs (ch : List Nat) (g : Graph) (id : Nat) :
    (g.bumpAll id ch).outputs = g.outputs := by
  induction ch generalizing g with
  | nil => rfl
  | cons c cs ih => rw [Graph.bumpAll, ih, Graph.bumpAt_outputs]

theorem Graph.bumpAt_getElem_ne (g : Graph) (c id n : Nat) (hne : n ≠ c) :
    (g.bumpAt c id).expressions[n]? = g.expressions[n]? := by
  rw [Graph.bumpAt]
  split
  · rename_i info heq
    exact List.getElem?_set_ne (fun he => hne he.symm)
  · rfl

theorem Graph.bumpAt_getElem_eq (g : Graph) (c id : Nat) (info : ExprInfo)
    (h : g.expressions[c]? = some info) :
    (g.bumpAt c id).expressions[c]? =
      some ⟨info.expression, addUsageEntry info.usages id, info.layout⟩ := by
  have hc : c < g.expressions.length := by
    by_contra hc
    rw [List.getElem?_eq_none_iff.mpr (Nat.le_of_not_lt hc)] at h
    exact absurd h (by simp)
  rw [Graph.bumpAt, h]
  exact List.getElem?_set_self (by simpa using hc)

/-- Pointwise effect of the usage-recording loop: bodies and layouts are
untouched, and node `n`'s usage keys gain `id` exactly when `n` occurs in
the child list and `id` was not yet recorded. -/
theorem Graph.bumpAll_getElem (ch : List Nat) (g : Graph) (id n : Nat)
    (info : ExprInfo) (h : g.expressions[n]? = some info) :
    ∃ us', (g.bumpAll id ch).expressions[n]? = some ⟨info.expression, us', info.layout⟩ ∧
      us'.map Prod.fst =
        (if n ∈ ch ∧ id ∉ info.usages.map Prod.fst
         then info.usages.map Prod.fst ++ [id] else info.usages.map Prod.fst) := by
  induction ch generalizing g info with
  | nil =>
      refine ⟨info.usages, ?_, by simp⟩
      rw [Graph.bumpAll]
      rw [h]
  | cons c cs ih =>
      rw [Graph.bumpAll]
      by_cases hn : n = c
      · subst hn
        have h1 := g.bumpAt_getElem_eq n id info h
        rcases ih (g.bumpAt n id) ⟨info.expression, addUsageEntry info.usages id, info.layout⟩ h1
          with ⟨us', h2, h3⟩
        refine ⟨us', h2, ?_⟩
        rw [h3]
        by_cases hid : id ∈ info.usages.map Prod.fst
        · simp [addUsageEntry_keys, hid]
        · simp [addUsageEntry_keys, hid]
      · have h1 : (g.bumpAt c id).expressions[n]? = some info := by
          rw [g.bumpAt_getElem_ne c id n hn, h]
        rcases ih (g.bumpAt c id) info h1 with ⟨us', h2, h3⟩
        refine ⟨us', h2, ?_⟩
        rw [h3]
        simp only [List.mem_cons, hn, false_or]

theorem Graph.foldl_addUsage_eq (ch : List Nat) (g : Graph) (id : Nat)
    (h : ∀ c ∈ ch, c < g.expressions.length) :
    ch.foldlM (fun g c => g.addUsage c id) g = some (g.bumpAll id ch) := by
  induction ch generalizing g with
  | nil => rfl
  | cons c cs ih =>
      rw [List.foldlM_cons]
      rw [g.addUsage_eq_bumpAt c id (h c (List.mem_cons_self _ _))]
      show cs.foldlM (fun g c => g.addUsage c id) (g.bumpAt c id) = _
      rw [ih (g.bumpAt c id) (fun c' hc' => by
        rw [Graph.bumpAt_length]
        exact h c' (List.mem_cons_of_mem _ hc'))]
      rfl

theorem Graph.foldl_addUsage_ranges (ch : List Nat) (g g' : Graph) (id : Nat)
    (h : ch.foldlM (fun g c => g.addUsage c id) g = some g') :
    ∀ c ∈ ch, c < g.expressions.length := by
  induction ch generalizing g with
  | nil => intro c hc; exact absurd hc (by simp)
  | cons c cs ih =>
      rw [List.foldlM_cons] at h
      by_cases hc : c < g.expressions.length
      · rw [g.addUsage_eq_bumpAt c id hc] at h
        intro c' hc'
        rcases List.mem_cons.mp hc' with he | hm
        · rw [he]; exact hc
        · have := ih (g.bumpAt c id) h c' hm
          rw [Graph.bumpAt_length] at this
          exact this
      · rw [g.addUsage_none c id hc] at h
        exact absurd h (by simp)

theorem mapOption_length {α β : Type} (f : α → Option β) :
    ∀ (l : List α) (r : List β), mapOption f l = some r → r.length = l.length := by
  intro l
  induction l with
  | nil =>
      intro r h
      rw [mapOption] at h
      simp only [Option.some_inj] at h
      rw [← h]
      rfl
  | cons a t ih =>
      intro r h
      rw [mapOption] at h
      cases hf : f a with
      | none => rw [hf] at h; exact absurd h (by simp)
      | some b =>
          rw [hf] at h
          cases ht : mapOption f t with
          | none => rw [ht] at h; exact absurd h (by simp)
          | some r' =>
              rw [ht] at h
              simp only [Option.map_some', Option.some_bind, Option.some_inj] at h
              rw [← h, List.length_cons, ih r' ht]
              rfl

theorem mapOption_layouts_some (g : Graph) (ch : List Nat)
    (hr : ∀ c ∈ ch, c < g.expressions.length) :
    ∃ ls : List Layout, mapOption (fun c => (g.expressions[c]?).map (·.layout)) ch = some ls ∧
      ls.length = ch.length := by
  induction ch with
  | nil => exact ⟨[], rfl, rfl⟩
  | cons c cs ih =>
      rcases ih (fun c' hc' => hr c' (List.mem_cons_of_mem _ hc')) with ⟨ls, hls, hlen⟩
      have hc : c < g.expressions.length := hr c (List.mem_cons_self _ _)
      obtain ⟨info, he⟩ : ∃ info, g.expressions[c]? = some info :=
        ⟨_, List.getElem?_eq_getElem hc⟩
      refine ⟨info.layout :: ls, ?_, by simp [hlen]⟩
      rw [mapOption, he]
      simp [hls]

theorem mapOption_some_of_mem {α β : Type} (f : α → Option β) :
    ∀ (l : List α) (r : List β), mapOption f l = some r → ∀ a ∈ l, ∃ b, f a = some b := by
  intro l
  induction l with
  | nil => intro r _ a ha; exact absurd ha (by simp)
  | cons x t ih =>
      intro r h a ha
      rw [mapOption] at h
      cases hf : f x with
      | none => rw [hf] at h; exact absurd h (by simp)
      | some b =>
          rw [hf] at h
          cases ht : mapOption f t with
          | none => rw [ht] at h; exact absurd h (by simp)
          | some r' =>
              rcases List.mem_cons.mp ha with he | hm
              · exact ⟨b, by rw [he]; exact hf⟩
              · exact ih r' ht a hm

theorem Op.inferLayout_nil (op : Op) : op.inferLayout [] = none := by
  cases op <;> rfl

theorem Op.inferLayout_some (op : Op) (ls : List Layout) (h : ls ≠ []) :
    ∃ lay, op.inferLayout ls = some lay := by
  cases ls with
  | nil => exact absurd rfl h
  | cons a t => cases op <;> exact ⟨_, rfl⟩

theorem Graph.addExprUntracked_op_eq (g : Graph) (op : Op) (ch : List Nat)
    (hr : ∀ c ∈ ch, c < g.expressions.length) (hne : ch ≠ []) :
    ∃ lay, g.addExprUntracked (.op op ch) =
      some { g with expressions := g.expressions ++ [⟨.op op ch, [], lay⟩] } := by
  rcases mapOption_layouts_some g ch hr with ⟨ls, hls, hlen⟩
  have hlsne : ls ≠ [] := by
    intro he
    rw [he] at hlen
    exact hne (List.length_eq_zero.mp hlen.symm)
  rcases Op.inferLayout_some op ls hlsne with ⟨lay, hinf⟩
  refine ⟨lay, ?_⟩
  rw [Graph.addExprUntracked]
  simp [hls, hinf]

theorem Graph.addExprUntracked_op_some (g : Graph) (op : Op) (ch : List Nat) (g' : Graph)
    (h : g.addExprUntracked (.op op ch) = some g') :
    (∀ c ∈ ch, c < g.expressions.length) ∧ ch ≠ [] := by
  rw [Graph.addExprUntracked] at h
  cases hm : mapOption (fun c => (g.expressions[c]?).map (·.layout)) ch with
  | none => rw [hm] at h; exact absurd h (by simp)
  | some ls =>
      rw [hm] at h
      constructor
      · intro c hc
        rcases mapOption_some_of_mem _ ch ls hm c hc with ⟨b, hb⟩
        cases hg : g.expressions[c]? with
        | none => rw [hg] at hb; exact absurd hb (by simp)
        | some info =>
            have := List.getElem?_eq_some_iff.mp hg
            exact this.1
      · intro he
        subst he
        have hls : ls = [] := by
          rw [mapOption] at hm
          exact (Option.some_inj.mp hm).symm
        subst hls
        simp [Op.inferLayout_nil] at h

theorem Graph.addOp_some_eq (g : Graph) (op : Op) (ch : List Nat) (g' : Graph) (id : Nat)
    (h : g.addOp op ch = some (g', id)) :
    id = g.expressions.length ∧ (∀ c ∈ ch, c < g.expressions.length) ∧ ch ≠ [] ∧
    ∃ lay, g' = { g.bumpAll g.expressions.length ch with
                  expressions := (g.bumpAll g.expressions.length ch).expressions
                    ++ [⟨.op op ch, [], lay⟩] } := by
  rw [Graph.addOp, Graph.addExpr] at h
  simp only [Option.bind_eq_bind] at h
  rcases Option.bind_eq_some.mp h with ⟨g1, hf, h2⟩
  rcases Option.bind_eq_some.mp h2 with ⟨g2, hu, h3⟩
  simp only [Option.some_inj, Prod.mk.injEq] at h3
  have hr : ∀ c ∈ ch, c < g.expressions.length :=
    Graph.foldl_addUsage_ranges ch g g1 g.expressions.length hf
  rw [Graph.foldl_addUsage_eq ch g g.expressions.length hr] at hf
  simp only [Option.some_inj] at hf
  subst hf
  have hb := Graph.addExprUntracked_op_some _ op ch g2 hu
  have hne : ch ≠ [] := hb.2
  have hrb : ∀ c ∈ ch, c < (g.bumpAll g.expressions.length ch).expressions.length := by
    intro c hc
    rw [Graph.bumpAll_length]
    exact hr c hc
  rcases Graph.addExprUntracked_op_eq _ op ch hrb hne with ⟨lay, heq⟩
  rw [heq] at hu
  simp only [Option.some_inj] at hu
  exact ⟨h3.2.symm, hr, hne, ⟨lay, by rw [← h3.1, ← hu]⟩⟩

theorem Graph.addInput_eq (g : Graph) (l : Layout) :
    g.addInput l = some ({ inputs := g.inputs ++ [g.expressions.length],
                           expressions := g.expressions ++ [⟨.varTensor l true, [], l⟩],
                           outputs := g.outputs }, g.expressions.length) := rfl

theorem Graph.addVariable_eq (g : Graph) (l : Layout) :
    g.addVariable l = some ({ inputs := g.inputs,
                              expressions := g.expressions ++ [⟨.varTensor l false, [], l⟩],
                              outputs := g.outputs }, g.expressions.length) := rfl

theorem Graph.addConstant_eq (g : Graph) (t : Tensor) :
    g.addConstant t = some ({ inputs := g.inputs,
                              expressions := g.expressions ++ [⟨.constTensor t, [], t.layout⟩],
                              outputs := g.outputs }, g.expressions.length) := rfl

/-- The children recorded in a node body (empty for non-operation nodes). -/
def ExprBody.childList : ExprBody → List Nat
  | .op _ ch => ch
  | _ => []

theorem Graph.childCount_lt (g : Graph) (n u : Nat) (h : g.childCount n u ≠ 0) :
    u < g.expressions.length := by
  rw [Graph.childCount] at h
  cases hg : g.expressions[u]? with
  | none => rw [hg] at h; exact absurd rfl h
  | some info => exact (List.getElem?_eq_some_iff.mp hg).1

theorem Graph.childCount_ne_zero_iff (g : Graph) (n u : Nat) :
    g.childCount n u ≠ 0 ↔
    ∃ info op ch, g.expressions[u]? = some info ∧ info.expression = .op op ch ∧ n ∈ ch := by
  cases hg : g.expressions[u]? with
  | none =>
      simp only [Graph.childCount, hg]
      simp
  | some info =>
      cases hb : info.expression with
      | op op ch =>
          simp only [Graph.childCount, hg, hb]
          constructor
          · intro h
            refine ⟨info, op, ch, rfl, hb, ?_⟩
            exact (List.count_pos_iff).mp (Nat.pos_of_ne_zero h)
          · rintro ⟨info', op', ch', hi, hb', hm⟩
            cases hi
            rw [hb] at hb'
            cases hb'
            have h2 : 0 < ch.count n := (List.count_pos_iff).mpr hm
            omega
      | varTensor l i =>
          simp only [Graph.childCount, hg, hb]
          constructor
          · intro h
            exact absurd rfl h
          · rintro ⟨info', op', ch', hi, hb', hm⟩
            cases hi
            rw [hb] at hb'
            exact absurd hb' (by simp)
      | constTensor t =>
          simp only [Graph.childCount, hg, hb]
          constructor
          · intro h
            exact absurd rfl h
          · rintro ⟨info', op', ch', hi, hb', hm⟩
            cases hi
            rw [hb] at hb'
            exact absurd hb' (by simp)

/-- Appending one node (with its usage-recording) preserves the construction
invariants. -/
theorem GraphInv.append (g gb : Graph) (inv : GraphInv g) (body : ExprBody) (lay : Layout)
    (len : Nat) (hlen : len = g.expressions.length)
    (hgb : gb = g.bumpAll len body.childList)
    (hr : ∀ c ∈ body.childList, c < len) :
    GraphInv { gb with expressions := gb.expressions ++ [⟨body, [], lay⟩] } := by
  have hlen_gb : gb.expressions.length = len := by
    rw [hgb, Graph.bumpAll_length, hlen]
  have hget_lt : ∀ u, u < len →
      ({ gb with expressions := gb.expressions ++ [⟨body, [], lay⟩] } : Graph).expressions[u]?
        = gb.expressions[u]? := by
    intro u hu
    show (gb.expressions ++ [⟨body, [], lay⟩])[u]? = _
    rw [List.getElem?_append, if_pos (by omega)]
  have hget_len :
      ({ gb with expressions := gb.expressions ++ [⟨body, [], lay⟩] } : Graph).expressions[len]?
        = some ⟨body, [], lay⟩ := by
    show (gb.expressions ++ [⟨body, [], lay⟩])[len]? = _
    rw [← hlen_gb]
    exact List.getElem?_concat_length _ _
  have hget_gt : ∀ u, len < u →
      ({ gb with expressions := gb.expressions ++ [⟨body, [], lay⟩] } : Graph).expressions[u]?
        = none := by
    intro u hu
    apply List.getElem?_eq_none_iff.mpr
    simp only [List.length_append, List.length_cons, List.length_nil, hlen_gb]
    omega
  have hnotkey : ∀ (n : Nat) (info0 : ExprInfo), g.expressions[n]? = some info0 →
      len ∉ info0.usages.map Prod.fst := by
    intro n info0 h0 hmem
    have h1 : g.childCount n len ≠ 0 := (inv.keysChar n info0 h0 len).mp hmem
    have h2 : len < g.expressions.length := g.childCount_lt n len h1
    omega
  have hpoint : ∀ (n : Nat) (info0 : ExprInfo), g.expressions[n]? = some info0 →
      ∃ us', ({ gb with expressions := gb.expressions ++ [⟨body, [], lay⟩] } : Graph).expressions[n]?
          = some ⟨info0.expression, us', info0.layout⟩ ∧
        us'.map Prod.fst =
          (if n ∈ body.childList then info0.usages.map Prod.fst ++ [len]
           else info0.usages.map Prod.fst) := by
    intro n info0 h0
    have hn0 : n < g.expressions.length := (List.getElem?_eq_some_iff.mp h0).1
    have hn : n < len := by omega
    rcases Graph.bumpAll_getElem body.childList g len n info0 h0 with ⟨us', h1, h2⟩
    refine ⟨us', ?_, ?_⟩
    · rw [hget_lt n hn, hgb]
      exact h1
    · rw [h2]
      by_cases hmem : n ∈ body.childList
      · rw [if_pos ⟨hmem, hnotkey n info0 h0⟩, if_pos hmem]
      · rw [if_neg (by tauto), if_neg hmem]
  have hcc_lt : ∀ n u, u < len →
      ({ gb with expressions := gb.expressions ++ [⟨body, [], lay⟩] } : Graph).childCount n u
        = g.childCount n u := by
    intro n u hu
    cases h0 : g.expressions[u]? with
    | none =>
        have h1 : g.expressions.length ≤ u := List.getElem?_eq_none_iff.mp h0
        omega
    | some info0 =>
        rcases hpoint u info0 h0 with ⟨us', h1, _⟩
        rw [Graph.childCount, Graph.childCount, h0, h1]
  have hcc_len : ∀ n,
      ({ gb with expressions := gb.expressions ++ [⟨body, [], lay⟩] } : Graph).childCount n len
        = body.childList.count n := by
    intro n
    rw [Graph.childCount, hget_len]
    cases body <;> rfl
  have hcc_gt : ∀ n u, len < u →
      ({ gb with expressions := gb.expressions ++ [⟨body, [], lay⟩] } : Graph).childCount n u
        = 0 := by
    intro n u hu
    rw [Graph.childCount, hget_gt u hu]
  refine ⟨?_, ?_, ?_⟩
  · -- topological order
    intro u info2 h2 op ch hbody c hc
    rcases Nat.lt_trichotomy u len with hu | hu | hu
    · cases h0 : g.expressions[u]? with
      | none =>
          have h1 : g.expressions.length ≤ u := List.getElem?_eq_none_iff.mp h0
          omega
      | some info0 =>
          rcases hpoint u info0 h0 with ⟨us', h1, _⟩
          rw [h1] at h2
          cases h2
          exact inv.topo u info0 h0 op ch hbody c hc
    · rw [hu, hget_len] at h2
      cases h2
      have hbody' : body = ExprBody.op op ch := hbody
      rw [hu]
      apply hr
      rw [hbody']
      show c ∈ ch
      exact hc
    · rw [hget_gt u hu] at h2
      exact absurd h2 (by simp)
  · -- usage keys duplicate-free
    intro n info2 h2
    rcases Nat.lt_trichotomy n len with hn | hn | hn
    · cases h0 : g.expressions[n]? with
      | none =>
          have h1 : g.expressions.length ≤ n := List.getElem?_eq_none_iff.mp h0
          omega
      | some info0 =>
          rcases hpoint n info0 h0 with ⟨us', h1, hkeys⟩
          rw [h1] at h2
          cases h2
          show (us'.map Prod.fst).Nodup
          rw [hkeys]
          have hold := inv.keysNodup n info0 h0
          by_cases hmem : n ∈ body.childList
          · rw [if_pos hmem]
            rw [List.nodup_append]
            refine ⟨hold, List.nodup_singleton _, ?_⟩
            intro a ha hb
            rw [List.mem_singleton] at hb
            rw [hb] at ha
            exact hnotkey n info0 h0 ha
          · rw [if_neg hmem]
            exact hold
    · rw [hn, hget_len] at h2
      cases h2
      exact List.nodup_nil
    · rw [hget_gt n hn] at h2
      exact absurd h2 (by simp)
  · -- usage keys = consumers
    intro n info2 h2 u
    rcases Nat.lt_trichotomy n len with hn | hn | hn
    · cases h0 : g.expressions[n]? with
      | none =>
          have h1 : g.expressions.length ≤ n := List.getElem?_eq_none_iff.mp h0
          omega
      | some info0 =>
          rcases hpoint n info0 h0 with ⟨us', h1, hkeys⟩
          rw [h1] at h2
          cases h2
          show u ∈ us'.map Prod.fst ↔ _
          rw [hkeys]
          rcases Nat.lt_trichotomy u len with hu | hu | hu
          · rw [hcc_lt n u hu]
            rw [← inv.keysChar n info0 h0 u]
            by_cases hmem : n ∈ body.childList
            · rw [if_pos hmem]
              rw [List.mem_append, List.mem_singleton]
              constructor
              · rintro (ha | hb)
                · exact ha
                · omega
              · intro ha
                exact Or.inl ha
            · rw [if_neg hmem]
          · rw [hu, hcc_len n]
            constructor
            · intro hmem
              by_cases hm : n ∈ body.childList
              · have h3 : 0 < body.childList.count n := (List.count_pos_iff).mpr hm
                omega
              · rw [if_neg hm] at hmem
                exact absurd hmem (hnotkey n info0 h0)
            · intro hcnt
              have hm : n ∈ body.childList := by
                by_contra hm
                rw [List.count_eq_zero_of_not_mem hm] at hcnt
                exact hcnt rfl
              rw [if_pos hm]
              rw [List.mem_append, List.mem_singleton]
              exact Or.inr rfl
          · rw [hcc_gt n u hu]
            simp only [ne_eq, not_true_eq_false, iff_false, not_not]
            by_contra hmem
            have hmem' : u ∈ info0.usages.map Prod.fst ∨ u = len := by
              by_cases hm : n ∈ body.childList
              · rw [if_pos hm, List.mem_append, List.mem_singleton] at hmem
                exact hmem
              · rw [if_neg hm] at hmem
                exact Or.inl hmem
            rcases hmem' with ha | hb
            · have h3 : g.childCount n u ≠ 0 := (inv.keysChar n info0 h0 u).mp ha
              have h4 : u < g.expressions.length := g.childCount_lt n u h3
              omega
            · omega
    · rw [hn, hget_len] at h2
      cases h2
      show u ∈ ([] : List (Nat × Nat)).map Prod.fst ↔ _
      simp only [List.map_nil, List.not_mem_nil, false_iff, ne_eq, not_not]
      rw [hn]
      rcases Nat.lt_trichotomy u len with hu | hu | hu
      · rw [hcc_lt len u hu]
        by_contra hcnt
        rcases (g.childCount_ne_zero_iff len u).mp hcnt with ⟨info', op', ch', hi, hb', hm⟩
        have h3 : len < u := inv.topo u info' hi op' ch' hb' len hm
        omega
      · rw [hu, hcc_len len]
        apply List.count_eq_zero_of_not_mem
        intro hm
        have h3 : len < len := hr len hm
        omega
      · exact hcc_gt len u hu
    · rw [hget_gt n hn] at h2
      exact absurd h2 (by simp)

theorem GraphInv.of_expressions_eq (g g' : Graph) (h : g'.expressions = g.expressions)
    (inv : GraphInv g) : GraphInv g' := by
  have hcc : ∀ n u, g'.childCount n u = g.childCount n u := by
    intro n u
    rw [Graph.childCount, Graph.childCount, h]
  refine ⟨?_, ?_, ?_⟩
  · intro u info h2 op ch hb c hc
    exact inv.topo u info (by rw [← h]; exact h2) op ch hb c hc
  · intro n info h2
    exact inv.keysNodup n info (by rw [← h]; exact h2)
  · intro n info h2 u
    rw [hcc n u]
    exact inv.keysChar n info (by rw [← h]; exact h2) u

theorem GraphInv.new : GraphInv Graph.new := by
  refine ⟨?_, ?_, ?_⟩
  · intro u info h
    exact absurd h (by simp [Graph.new])
  · intro n info h
    exact absurd h (by simp [Graph.new])
  · intro n info h
    exact absurd h (by simp [Graph.new])

theorem GraphInv.applyStep (g g' : Graph) (inv : GraphInv g) (s : BuildStep)
    (h : g.applyStep s = some g') : GraphInv g' := by
  cases s with
  | input l =>
      rw [Graph.applyStep, Graph.addInput_eq] at h
      simp only [Option.map_some', Option.some_inj] at h
      have happ := GraphInv.append g g inv (.varTensor l true) l g.expressions.length rfl rfl
        (fun c hc => absurd hc (by simp [ExprBody.childList]))
      exact GraphInv.of_expressions_eq _ _ (by rw [← h]) happ
  | var l =>
      rw [Graph.applyStep, Graph.addVariable_eq] at h
      simp only [Option.map_some', Option.some_inj] at h
      have happ := GraphInv.append g g inv (.varTensor l false) l g.expressions.length rfl rfl
        (fun c hc => absurd hc (by simp [ExprBody.childList]))
      exact GraphInv.of_expressions_eq _ _ (by rw [← h]) happ
  | const t =>
      rw [Graph.applyStep, Graph.addConstant_eq] at h
      simp only [Option.map_some', Option.some_inj] at h
      have happ := GraphInv.append g g inv (.constTensor t) t.layout g.expressions.length rfl rfl
        (fun c hc => absurd hc (by simp [ExprBody.childList]))
      exact GraphInv.of_expressions_eq _ _ (by rw [← h]) happ
  | op op ch =>
      rw [Graph.applyStep] at h
      cases hop : g.addOp op ch with
      | none => rw [hop] at h; exact absurd h (by simp)
      | some pr =>
          rw [hop] at h
          simp only [Option.map_some', Option.some_inj] at h
          rcases Graph.addOp_some_eq g op ch pr.1 pr.2 (by rw [hop]) with ⟨hid, hr, hne, lay, heq⟩
          have happ := GraphInv.append g (g.bumpAll g.expressions.length ch) inv (.op op ch)
            lay g.expressions.length rfl rfl hr
          refine GraphInv.of_expressions_eq _ _ ?_ happ
          rw [← h, heq]
  | output e =>
      rw [Graph.applyStep] at h
      have h2 : g.addOutput e = g' := Option.some_inj.mp h
      exact GraphInv.of_expressions_eq _ _ (by rw [← h2]; rfl) inv

theorem build_inv_aux (bs : List BuildStep) :
    ∀ (g0 g : Graph), GraphInv g0 → bs.foldlM Graph.applyStep g0 = some g → GraphInv g := by
  induction bs with
  | nil =>
      intro g0 g h0 h
      rw [List.foldlM_nil] at h
      simp only [Option.pure_def, Option.some_inj] at h
      rw [← h]
      exact h0
  | cons s rest ih =>
      intro g0 g h0 h
      rw [List.foldlM_cons] at h
      cases hs : g0.applyStep s with
      | none => rw [hs] at h; exact absurd h (by simp)
      | some g1 =>
          rw [hs] at h
          exact ih g1 g (GraphInv.applyStep g0 g1 h0 s hs) h

theorem build_inv (bs : List BuildStep) (g : Graph) (h : build bs = some g) : GraphInv g :=
  build_inv_aux bs Graph.new g GraphInv.new h

/-- C8: for every graph built solely through the public construction API,
every Op node's children have strictly smaller ids than the node itself —
ids form a valid topological order, with no forward references and no
cycles. -/
theorem built_topological (bs : List BuildStep) (g : Graph) (h : build bs = some g)
    (u : Nat) (info : ExprInfo) (hu : g.expressions[u]? = some info)
    (op : Op) (ch : List Nat) (hb : info.expression = .op op ch) :
    ∀ c ∈ ch, c < u :=
  (build_inv bs g h).topo u info hu op ch hb

/-- The build trace used by several concrete witnesses: two scalar inputs,
their sum, one output. -/
def c8steps : List BuildStep :=
  [.input Layout.scalar, .input Layout.scalar, .op (.elemwise .add) [0, 1], .output 2]

/-- The node record the C8 witness inspects. -/
def c8info : ExprInfo := ⟨.op (.elemwise .add) [0, 1], [], Layout.scalar⟩

/-- C8 witness: the topological-order theorem applied to a concrete
two-input graph at its Add node. -/
theorem built_topological_witness :
    build c8steps = some ((build c8steps).getD Graph.new) ∧
    ((build c8steps).getD Graph.new).expressions[2]? = some c8info ∧
    c8info.expression = .op (.elemwise .add) [0, 1] ∧
    ∀ c ∈ [0, 1], c < 2 :=
  ⟨rfl, rfl, rfl, built_topological c8steps _ rfl 2 c8info rfl (.elemwise .add) [0, 1] rfl⟩

theorem le_foldl_max_self (l : List Nat) (a : Nat) : a ≤ l.foldl Nat.max a := by
  induction l generalizing a with
  | nil => exact Nat.le_refl a
  | cons x t ih =>
      rw [List.foldl_cons]
      exact Nat.le_trans (Nat.le_max_left a x) (ih (Nat.max a x))

theorem le_foldl_max_of_mem (l : List Nat) (a x : Nat) (h : x ∈ l) :
    x ≤ l.foldl Nat.max a := by
  induction l generalizing a with
  | nil => exact absurd h (by simp)
  | cons y t ih =>
      rw [List.foldl_cons]
      rcases List.mem_cons.mp h with he | hm
      · rw [he]
        exact Nat.le_trans (Nat.le_max_right a y) (le_foldl_max_self t (Nat.max a y))
      · exact ih (Nat.max a y) hm

theorem foldl_max_le (l : List Nat) (a b : Nat) (ha : a ≤ b) (h : ∀ x ∈ l, x ≤ b) :
    l.foldl Nat.max a ≤ b := by
  induction l generalizing a with
  | nil => exact ha
  | cons y t ih =>
      rw [List.foldl_cons]
      exact ih (Nat.max a y) (Nat.max_le.mpr ⟨ha, h y (List.mem_cons_self _ _)⟩)
        (fun x hx => h x (List.mem_cons_of_mem _ hx))

theorem foldl_max_eq_of_mem_iff (l1 l2 : List Nat) (h : ∀ x, x ∈ l1 ↔ x ∈ l2) (a : Nat) :
    l1.foldl Nat.max a = l2.foldl Nat.max a :=
  Nat.le_antisymm
    (foldl_max_le l1 a _ (le_foldl_max_self l2 a)
      (fun x hx => le_foldl_max_of_mem l2 a x ((h x).mp hx)))
    (foldl_max_le l2 a _ (le_foldl_max_self l1 a)
      (fun x hx => le_foldl_max_of_mem l1 a x ((h x).mpr hx)))

theorem foldl_max_head (u : Nat) (us : List Nat) :
    us.foldl Nat.max u = (u :: us).foldl Nat.max 0 := by
  rw [List.foldl_cons]
  have hz : Nat.max 0 u = u := by simp
  rw [hz]

theorem Graph.mem_consumersOf_iff (g : Graph) (n u : Nat) :
    u ∈ g.consumersOf n ↔ g.childCount n u ≠ 0 := by
  rw [Graph.consumersOf, List.mem_filter, List.mem_range]
  constructor
  · rintro ⟨_, h2⟩
    simpa using h2
  · intro h
    exact ⟨g.childCount_lt n u h, by simpa using h⟩

theorem Graph.lastUsages_getElem (g : Graph) (n : Nat) (info : ExprInfo)
    (h : g.expressions[n]? = some info) :
    g.lastUsages[n]? = some (info.lastUsage n) := by
  rw [Graph.lastUsages, List.getElem?_map, List.getElem?_enum, h]
  rfl

/-- C4: for every graph built through the public construction API, the
recorded last usage of node `n` (the maximum key of its usage map, per the
spec-modelled `last_usages`) equals the maximum id among all nodes that
list `n` as a direct child, or `n` itself if no node consumes it. -/
theorem built_last_usage (bs : List BuildStep) (g : Graph) (h : build bs = some g)
    (n : Nat) (info : ExprInfo) (hn : g.expressions[n]? = some info) :
    g.lastUsages[n]? = some (lastUsageSpec g n) := by
  have inv := build_inv bs g h
  rw [Graph.lastUsages_getElem g n info hn]
  have hmem : ∀ u, u ∈ info.usages.map Prod.fst ↔ u ∈ g.consumersOf n := by
    intro u
    rw [inv.keysChar n info hn u, Graph.mem_consumersOf_iff]
  rw [ExprInfo.lastUsage, lastUsageSpec]
  cases hk : info.usages.map Prod.fst with
  | nil =>
      cases hc : g.consumersOf n with
      | nil => rfl
      | cons v vs =>
          have : v ∈ info.usages.map Prod.fst := by
            rw [hmem v, hc]
            exact List.mem_cons_self _ _
          rw [hk] at this
          exact absurd this (by simp)
  | cons u us =>
      cases hc : g.consumersOf n with
      | nil =>
          have : u ∈ g.consumersOf n := by
            rw [← hmem u, hk]
            exact List.mem_cons_self _ _
          rw [hc] at this
          exact absurd this (by simp)
      | cons v vs =>
          show some (us.foldl Nat.max u) = some (vs.foldl Nat.max v)
          rw [foldl_max_head u us, foldl_max_head v vs]
          rw [Option.some_inj]
          apply foldl_max_eq_of_mem_iff
          intro x
          rw [← hk, ← hc]
          exact hmem x

/-- The build trace for the C4 witness: one input consumed by two Sin nodes. -/
def c4steps : List BuildStep :=
  [.input Layout.scalar, .op (.elemwise .sin) [0], .op (.elemwise .sin) [0], .output 2]

/-- C4 witness: the last-usage theorem applied to the concrete graph at its
input node (consumers 1 and 2, recorded last usage 2). -/
theorem built_last_usage_witness :
    build c4steps = some ((build c4steps).getD Graph.new) ∧
    ((build c4steps).getD Graph.new).expressions[0]?
      = some ⟨.varTensor Layout.scalar true, [(1, 1), (2, 1)], Layout.scalar⟩ ∧
    ((build c4steps).getD Graph.new).lastUsages[0]?
      = some (lastUsageSpec ((build c4steps).getD Graph.new) 0) ∧
    lastUsageSpec ((build c4steps).getD Graph.new) 0 = 2 :=
  ⟨rfl, rfl, built_last_usage c4steps _ rfl 0 ⟨.varTensor Layout.scalar true, [(1, 1), (2, 1)], Layout.scalar⟩ rfl, by decide⟩

/-! ## Input-list tracking (C10) -/

/-- The ids `add_input` returns along a build trace, in call order: each
node-creating call advances the id counter, `add_output` does not. -/
def expectedInputsFrom (id : Nat) : List BuildStep → List Nat
  | [] => []
  | .input _ :: rest => id :: expectedInputsFrom (id + 1) rest
  | .var _ :: rest => expectedInputsFrom (id + 1) rest
  | .const _ :: rest => expectedInputsFrom (id + 1) rest
  | .op _ _ :: rest => expectedInputsFrom (id + 1) rest
  | .output _ :: rest => expectedInputsFrom id rest

/-- The number of node-creating calls in a build trace. -/
def nodeCount : List BuildStep → Nat
  | [] => 0
  | .output _ :: rest => nodeCount rest
  | _ :: rest => nodeCount rest + 1

theorem built_inputs_aux (bs : List BuildStep) :
    ∀ (g0 g : Graph), bs.foldlM Graph.applyStep g0 = some g →
      g.inputs = g0.inputs ++ expectedInputsFrom g0.expressions.length bs ∧
      g.expressions.length = g0.expressions.length + nodeCount bs := by
  induction bs with
  | nil =>
      intro g0 g h
      rw [List.foldlM_nil] at h
      simp only [Option.pure_def, Option.some_inj] at h
      rw [← h]
      exact ⟨by rw [expectedInputsFrom]; simp, rfl⟩
  | cons s rest ih =>
      intro g0 g h
      rw [List.foldlM_cons] at h
      cases hs : g0.applyStep s with
      | none => rw [hs] at h; exact absurd h (by simp)
      | some g1 =>
          rw [hs] at h
          rcases ih g1 g h with ⟨hi, hl⟩
          cases s with
          | input l =>
              rw [Graph.applyStep, Graph.addInput_eq] at hs
              simp only [Option.map_some', Option.some_inj] at hs
              rw [← hs] at hi hl
              simp only [List.length_append, List.length_cons, List.length_nil,
                Nat.zero_add] at hi hl
              rw [hi, hl]
              rw [show expectedInputsFrom g0.expressions.length (BuildStep.input l :: rest)
                    = g0.expressions.length :: expectedInputsFrom (g0.expressions.length + 1) rest
                  from rfl]
              rw [show nodeCount (BuildStep.input l :: rest) = nodeCount rest + 1 from rfl]
              constructor
              · rw [List.append_assoc]
                rfl
              · omega
          | var l =>
              rw [Graph.applyStep, Graph.addVariable_eq] at hs
              simp only [Option.map_some', Option.some_inj] at hs
              rw [← hs] at hi hl
              simp only [List.length_append, List.length_cons, List.length_nil,
                Nat.zero_add] at hi hl
              rw [hi, hl]
              rw [show expectedInputsFrom g0.expressions.length (BuildStep.var l :: rest)
                    = expectedInputsFrom (g0.expressions.length + 1) rest from rfl]
              rw [show nodeCount (BuildStep.var l :: rest) = nodeCount rest + 1 from rfl]
              exact ⟨rfl, by omega⟩
          | const t =>
              rw [Graph.applyStep, Graph.addConstant_eq] at hs
              simp only [Option.map_some', Option.some_inj] at hs
              rw [← hs] at hi hl
              simp only [List.length_append, List.length_cons, List.length_nil,
                Nat.zero_add] at hi hl
              rw [hi, hl]
              rw [show expectedInputsFrom g0.expressions.length (BuildStep.const t :: rest)
                    = expectedInputsFrom (g0.expressions.length + 1) rest from rfl]
              rw [show nodeCount (BuildStep.const t :: rest) = nodeCount rest + 1 from rfl]
              exact ⟨rfl, by omega⟩
          | op op ch =>
              rw [Graph.applyStep] at hs
              cases hop : g0.addOp op ch with
              | none => rw [hop] at hs; exact absurd hs (by simp)
              | some pr =>
                  rw [hop] at hs
                  simp only [Option.map_some', Option.some_inj] at hs
                  rcases Graph.addOp_some_eq g0 op ch pr.1 pr.2 (by rw [hop])
                    with ⟨_, _, _, lay, heq⟩
                  rw [heq] at hs
                  rw [← hs] at hi hl
                  simp only [List.length_append, List.length_cons, List.length_nil,
                    Nat.zero_add, Graph.bumpAll_length, Graph.bumpAll_inputs] at hi hl
                  rw [hi, hl]
                  rw [show expectedInputsFrom g0.expressions.length (BuildStep.op op ch :: rest)
                        = expectedInputsFrom (g0.expressions.length + 1) rest from rfl]
                  rw [show nodeCount (BuildStep.op op ch :: rest) = nodeCount rest + 1 from rfl]
                  exact ⟨rfl, by omega⟩
          | output e =>
              rw [Graph.applyStep] at hs
              have h2 : g0.addOutput e = g1 := Option.some_inj.mp hs
              rw [← h2] at hi hl
              rw [hi, hl]
              rw [show expectedInputsFrom g0.expressions.length (BuildStep.output e :: rest)
                    = expectedInputsFrom g0.expressions.length rest from rfl]
              rw [show nodeCount (BuildStep.output e :: rest) = nodeCount rest from rfl]
              exact ⟨rfl, rfl⟩

/-- C10: for every graph built through the public construction API, the
inputs list contains exactly the ids returned by `add_input`, in call
order; `add_variable` appends a non-input `VarTensor` node with the given
layout without registering it in the inputs list (the total node count
grows with every node-creating call), and `add_constant`, `add_op` and
`add_output` never modify the inputs list. -/
theorem built_inputs (bs : List BuildStep) (g : Graph) (h : build bs = some g) :
    g.inputs = expectedInputsFrom 0 bs ∧
    g.expressions.length = nodeCount bs ∧
    ∀ (g0 : Graph) (l : Layout), g0.addVariable l =
      some ({ inputs := g0.inputs,
              expressions := g0.expressions ++ [⟨.varTensor l false, [], l⟩],
              outputs := g0.outputs }, g0.expressions.length) := by
  rcases built_inputs_aux bs Graph.new g h with ⟨hi, hl⟩
  refine ⟨?_, ?_, ?_⟩
  · rw [hi]
    rfl
  · rw [hl]
    simp [Graph.new]
  · intro g0 l
    exact Graph.addVariable_eq g0 l

/-- The build trace for the C10 witness: input, variable, constant, op,
output, then a second input. -/
def c10steps : List BuildStep :=
  [.input Layout.scalar, .var (Layout.ofDims [2]), .const ⟨[], Layout.scalar⟩,
   .op (.elemwise .add) [0, 0], .output 3, .input Layout.scalar]

/-- C10 witness: the inputs list of the concrete trace is exactly the
`add_input` ids `[0, 4]` and five nodes were created. -/
theorem built_inputs_witness :
    build c10steps = some ((build c10steps).getD Graph.new) ∧
    ((build c10steps).getD Graph.new).inputs = expectedInputsFrom 0 c10steps ∧
    expectedInputsFrom 0 c10steps = [0, 4] ∧
    ((build c10steps).getD Graph.new).expressions.length = nodeCount c10steps ∧
    nodeCount c10steps = 5 :=
  ⟨rfl, (built_inputs c10steps _ rfl).1, by decide,
   (built_inputs c10steps _ rfl).2.1, by decide⟩

/-! ## Plan-level reference functions -/

/-- The per-node alias `compile` records: a Movement node gets its first
child's **raw id** (`aliases.push(children[0])`), every other node gets
itself. -/
def Graph.aliasOf (g : Graph) (id : Nat) : Nat :=
  match g.expressions[id]? with
  | some info =>
      match info.expression with
      | .op (.movement _) ch => ch.headD id
      | _ => id
  | none => id

/-- Modelled from the spec: full alias resolution — "any chain of Movement
ops resolves to the id of the node that actually owns the storage".  The
fuel bounds the chain length; any fuel at least the node count suffices. -/
def Graph.resolveOwner (g : Graph) : Nat → Nat → Nat
  | 0, id => id
  | fuel + 1, id =>
      match g.expressions[id]? with
      | some info =>
          match info.expression with
          | .op (.movement _) ch => g.resolveOwner fuel (ch.headD id)
          | _ => id
      | none => id

/-- The (post-movement) layout the graph records for a node. -/
def Graph.nodeLayout (g : Graph) (id : Nat) : Layout :=
  ((g.expressions[id]?).map (·.layout)).getD default

/-- Is this step an `Execute`? -/
def WgpuStep.isExecute : WgpuStep → Bool
  | .execute _ _ _ _ _ => true
  | _ => false

/-- Is this step `Deallocate c`? -/
def WgpuStep.isDeallocOf (c : Nat) : WgpuStep → Bool
  | .deallocate id => id == c
  | _ => false

/-- Is this step an `Execute` whose output is `u`? -/
def WgpuStep.isExecOf (u : Nat) : WgpuStep → Bool
  | .execute o _ _ _ _ => o == u
  | _ => false

/-- Is this the step that materializes node `c`'s buffer — an `Allocate c`
or an `Execute` with output `c`? -/
def WgpuStep.isProducerOf (c : Nat) : WgpuStep → Bool
  | .allocate id _ => id == c
  | .execute o _ _ _ _ => o == c
  | _ => false

/-- The buffer-id list of an `Execute` step. -/
def WgpuStep.executeInputs : WgpuStep → Option (List Nat)
  | .execute _ _ _ inputs _ => some inputs
  | _ => none

instance : Inhabited KernelCtx := ⟨⟨0, [], [], ""⟩⟩

/-- The `Execute` step `compile` emits for an elemwise node, as a function
of the graph alone (the accumulated layout table is the prefix of node
layouts, so each child's resolved layout is `nodeLayout`). -/
def Graph.execStepOf (g : Graph) (wgx : Nat) (id : Nat) (e : ElemwiseOp) (ch : List Nat)
    (lay : Layout) : WgpuStep :=
  let childLayouts := ch.map g.nodeLayout
  WgpuStep.execute id
    (renderElemwise ((kernelElemwiseCtx wgx lay (ch.zip childLayouts) (wgpuExprFor e ch)).getD default))
    [divCeil (lay.elements % 4294967296) wgx, 1, 1]
    (id :: ch)
    ((lay.size, false) :: childLayouts.map (fun l => (l.size, true)))

/-- The contiguous run of steps `compile` emits while visiting one node:
nothing for inputs/variables and for Movement nodes (whose `continue`
skips both the `Execute` push and the deallocate loop), an `Allocate` for
a constant, and for an elemwise node its `Execute` followed by one
`Deallocate(child)` per child occurrence whose recorded last usage is this
node. -/
def Graph.blockOf (g : Graph) (wgx : Nat) (id : Nat) : List WgpuStep :=
  match g.expressions[id]? with
  | none => []
  | some info =>
      match info.expression with
      | .varTensor _ _ => []
      | .constTensor t => [.allocate id t]
      | .op (.movement _) _ => []
      | .op (.reduce _ _) _ => []
      | .op (.elemwise e) ch =>
          g.execStepOf wgx id e ch info.layout
            :: (ch.filter (fun c => g.lastUsages.getD c 0 == id)).map WgpuStep.deallocate

/-- How many `Deallocate c` steps the emitted plan contains: the child
multiplicity of `c` in its recorded final consumer when that consumer is a
distinct elemwise Op node, and zero otherwise (no consumer, or a Movement
final consumer — never freed). -/
def Graph.deallocCountSpec (g : Graph) (c : Nat) : Nat :=
  let u := g.lastUsages.getD c c
  if u = c then 0
  else
    match g.expressions[u]? with
    | some info =>
        match info.expression with
        | .op (.elemwise _) ch => ch.count c
        | _ => 0
    | none => 0

/-! ## Movement aliasing (C2) and Execute input resolution (C5) -/

/-- The chain build trace: input, squeeze, squeeze, output. -/
def c2steps : List BuildStep :=
  [.input Layout.scalar, .op (.movement .squeeze) [0], .op (.movement .squeeze) [1], .output 2]

/-- C2: evaluation at the failing input.  A chain of two Movement ops over
one input compiles to a plan with zero `Execute` steps (that part of the
claim holds), but the chain's recorded alias is the *middle* node's raw id
1 — `aliases.push(children[0])` — not the storage-owning node 0 the claim
(and the runner, which would look up a buffer for id 1 that no step ever
allocates) requires. -/
theorem movement_alias_chain_eval :
    ((build c2steps).bind WgpuCompiler.default.compile).map
        (fun plan => (plan.steps.countP WgpuStep.isExecute, plan.outputs))
      = some (0, [1]) ∧
    ((build c2steps).getD Graph.new).aliasOf 2 = 1 ∧
    ((build c2steps).getD Graph.new).resolveOwner 3 2 = 0 ∧
    (1 : Nat) ≠ 0 :=
  ⟨rfl, rfl, rfl, by decide⟩

/-- The movement-into-elemwise build trace: input, squeeze, sin, output. -/
def c5steps : List BuildStep :=
  [.input Layout.scalar, .op (.movement .squeeze) [0], .op (.elemwise .sin) [1], .output 2]

/-- C5: evaluation at the failing input.  The Sin node's `Execute` binds
buffer ids `[2, 1]` — the output followed by the child's **own** id — even
though child 1 is a Movement node whose storage owner is node 0; no step
in the plan allocates or produces a buffer for id 1, so the runner's
buffer lookup for the recorded id faults. -/
theorem execute_inputs_unresolved_eval :
    ((build c5steps).bind WgpuCompiler.default.compile).map
        (fun plan => (plan.steps.filterMap WgpuStep.executeInputs,
                      plan.steps.countP (WgpuStep.isProducerOf 1)))
      = some ([[2, 1]], 0) ∧
    ((build c5steps).getD Graph.new).aliasOf 1 = 0 ∧
    ((build c5steps).getD Graph.new).resolveOwner 3 1 = 0 ∧
    (1 : Nat) ≠ 0 :=
  ⟨rfl, rfl, rfl, by decide⟩

/-! ## Output layouts (C3) -/

/-- Two inputs of different shapes, both declared outputs in order. -/
def c3steps : List BuildStep :=
  [.input (Layout.ofDims [2]), .input (Layout.ofDims [3]), .output 0, .output 1]

/-- C3 (counterexample): with outputs declared `[0, 1]`, the emitted
`output_layouts` list is `[layout 1, layout 0]` — reverse declaration
order, not the original order the claim requires (the two layouts
differ, so the lists differ). -/
theorem output_layouts_order_cx :
    ((build c3steps).bind WgpuCompiler.default.compile).map (fun p => p.outputLayouts)
      = some [Layout.ofDims [3], Layout.ofDims [2]] ∧
    Layout.ofDims [3] ≠ Layout.ofDims [2] :=
  ⟨rfl, by decide⟩

/-! ## Characterizing the compile loop -/

theorem mapOption_congr {α β : Type} (f f' : α → Option β) :
    ∀ (l : List α), (∀ a ∈ l, f a = f' a) → mapOption f l = mapOption f' l := by
  intro l
  induction l with
  | nil => intro _; rfl
  | cons a t ih =>
      intro h
      rw [mapOption, mapOption, h a (List.mem_cons_self _ _),
        ih (fun a ha => h a (List.mem_cons_of_mem _ ha))]

theorem mapOption_eq_map {α β : Type} (f : α → Option β) (f' : α → β) :
    ∀ (l : List α), (∀ a ∈ l, f a = some (f' a)) → mapOption f l = some (l.map f') := by
  intro l
  induction l with
  | nil => intro _; rfl
  | cons a t ih =>
      intro h
      rw [mapOption, h a (List.mem_cons_self _ _),
        ih (fun a ha => h a (List.mem_cons_of_mem _ ha))]
      rfl

theorem headD_of_getElem?_zero {α : Type} (l : List α) (a d : α) (h : l[0]? = some a) :
    l.headD d = a := by
  cases l with
  | nil => exact absurd h (by simp)
  | cons x t =>
      simp only [List.getElem?_cons_zero, Option.some_inj] at h
      rw [← h]
      rfl

theorem compileNode_eq_var (wgx : Nat) (U : List Nat) (id : Nat) (info : ExprInfo)
    (st : CompileState) (l : Layout) (inp : Bool)
    (hbody : info.expression = .varTensor l inp) :
    compileNode wgx U id info st
      = some { st with aliases := st.aliases ++ [id], layouts := st.layouts ++ [info.layout] } := by
  unfold compileNode
  rw [hbody]

theorem compileNode_eq_const (wgx : Nat) (U : List Nat) (id : Nat) (info : ExprInfo)
    (st : CompileState) (t : Tensor) (hbody : info.expression = .constTensor t) :
    compileNode wgx U id info st
      = some ⟨st.steps ++ [.allocate id t], st.layouts ++ [info.layout], st.aliases ++ [id]⟩ := by
  unfold compileNode
  rw [hbody]

theorem compileNode_eq_movement (wgx : Nat) (U : List Nat) (id : Nat) (info : ExprInfo)
    (st : CompileState) (m : MovementOp) (ch : List Nat)
    (hbody : info.expression = .op (.movement m) ch) :
    compileNode wgx U id info st
      = (ch[0]?).map (fun c0 =>
          { st with aliases := st.aliases ++ [c0], layouts := st.layouts ++ [info.layout] }) := by
  unfold compileNode
  rw [hbody]

theorem compileNode_eq_reduce (wgx : Nat) (U : List Nat) (id : Nat) (info : ExprInfo)
    (st : CompileState) (r : ReduceOp) (rd : List Nat) (ch : List Nat)
    (hbody : info.expression = .op (.reduce r rd) ch) :
    compileNode wgx U id info st = none := by
  unfold compileNode
  rw [hbody]

theorem compileNode_eq_elemwise (wgx : Nat) (U : List Nat) (id : Nat) (info : ExprInfo)
    (st : CompileState) (e : ElemwiseOp) (ch : List Nat)
    (hbody : info.expression = .op (.elemwise e) ch) :
    compileNode wgx U id info st =
      (mapOption (fun c => st.layouts[c]?) ch).bind (fun childLayouts =>
        (kernelElemwiseCtx wgx info.layout (ch.zip childLayouts) (wgpuExprFor e ch)).bind
          (fun ctx =>
            some ⟨st.steps
                    ++ [WgpuStep.execute id (renderElemwise ctx)
                          [divCeil (info.layout.elements % 4294967296) wgx, 1, 1] (id :: ch)
                          ((info.layout.size, false)
                            :: childLayouts.map (fun l => (l.size, true)))]
                    ++ (ch.filter (fun c => U.getD c 0 == id)).map WgpuStep.deallocate,
                  st.layouts ++ [info.layout], st.aliases ++ [id]⟩)) := by
  unfold compileNode
  rw [hbody]
  rfl

theorem compileLoop_cons (wgx : Nat) (U : List Nat) (id : Nat) (info : ExprInfo)
    (rest : List ExprInfo) (st : CompileState) :
    compileLoop wgx U id (info :: rest) st
      = (compileNode wgx U id info st).bind (compileLoop wgx U (id + 1) rest) := by
  rw [compileLoop]
  rfl

theorem compileLoop_nil (wgx : Nat) (U : List Nat) (id : Nat) (st : CompileState) :
    compileLoop wgx U id [] st = some st := rfl

theorem Graph.aliasOf_nonmovement (g : Graph) (id : Nat) (info : ExprInfo)
    (hid : g.expressions[id]? = some info)
    (hb : ∀ m ch, info.expression ≠ .op (.movement m) ch) :
    g.aliasOf id = id := by
  cases hbody : info.expression with
  | op o ch =>
      cases o with
      | movement m => exact absurd hbody (hb m ch)
      | elemwise e => simp only [Graph.aliasOf, hid, hbody]
      | reduce r rd => simp only [Graph.aliasOf, hid, hbody]
  | varTensor l inp => simp only [Graph.aliasOf, hid, hbody]
  | constTensor t => simp only [Graph.aliasOf, hid, hbody]

theorem Graph.aliasOf_movement (g : Graph) (id : Nat) (info : ExprInfo) (m : MovementOp)
    (ch : List Nat) (hid : g.expressions[id]? = some info)
    (hbody : info.expression = .op (.movement m) ch) :
    g.aliasOf id = ch.headD id := by
  simp only [Graph.aliasOf, hid, hbody]

theorem Graph.blockOf_var (g : Graph) (wgx id : Nat) (info : ExprInfo) (l : Layout) (inp : Bool)
    (hid : g.expressions[id]? = some info) (hbody : info.expression = .varTensor l inp) :
    g.blockOf wgx id = [] := by
  simp only [Graph.blockOf, hid, hbody]

theorem Graph.blockOf_const (g : Graph) (wgx id : Nat) (info : ExprInfo) (t : Tensor)
    (hid : g.expressions[id]? = some info) (hbody : info.expression = .constTensor t) :
    g.blockOf wgx id = [.allocate id t] := by
  simp only [Graph.blockOf, hid, hbody]

theorem Graph.blockOf_movement (g : Graph) (wgx id : Nat) (info : ExprInfo) (m : MovementOp)
    (ch : List Nat) (hid : g.expressions[id]? = some info)
    (hbody : info.expression = .op (.movement m) ch) :
    g.blockOf wgx id = [] := by
  simp only [Graph.blockOf, hid, hbody]

theorem Graph.blockOf_elemwise (g : Graph) (wgx id : Nat) (info : ExprInfo) (e : ElemwiseOp)
    (ch : List Nat) (hid : g.expressions[id]? = some info)
    (hbody : info.expression = .op (.elemwise e) ch) :
    g.blockOf wgx id = g.execStepOf wgx id e ch info.layout
      :: (ch.filter (fun c => g.lastUsages.getD c 0 == id)).map WgpuStep.deallocate := by
  simp only [Graph.blockOf, hid, hbody]

/-- What one successful run of `compile`'s node loop appends to the
accumulated state: the per-node layouts, the per-node aliases, and the
per-node step blocks in id order. -/
theorem compileLoop_run (wgx : Nat) (g : Graph) :
    ∀ (rest : List ExprInfo) (id : Nat) (st st' : CompileState),
      g.expressions.drop id = rest →
      st.layouts = (g.expressions.take id).map (·.layout) →
      compileLoop wgx g.lastUsages id rest st = some st' →
      st'.layouts = st.layouts ++ rest.map (·.layout) ∧
      st'.aliases = st.aliases ++ (List.range' id rest.length).map g.aliasOf ∧
      st'.steps = st.steps ++ ((List.range' id rest.length).map (g.blockOf wgx)).join := by
  intro rest
  induction rest with
  | nil =>
      intro id st st' hdrop hlay hloop
      rw [compileLoop_nil] at hloop
      simp only [Option.some_inj] at hloop
      rw [← hloop]
      exact ⟨by simp, by simp, by simp⟩
  | cons info rest' ih =>
      intro id st st' hdrop hlay hloop
      have hid : g.expressions[id]? = some info := by
        have h0 : (g.expressions.drop id)[0]? = some info := by rw [hdrop]; simp
        rw [List.getElem?_drop] at h0
        simpa using h0
      have hidlt : id < g.expressions.length := (List.getElem?_eq_some_iff.mp hid).1
      have hdrop' : g.expressions.drop (id + 1) = rest' := by
        have ht : (g.expressions.drop id).tail = g.expressions.drop (id + 1) :=
          List.tail_drop g.expressions id
        rw [← ht, hdrop]
        rfl
      have hlaylen : st.layouts.length = id := by
        rw [hlay, List.length_map, List.length_take]
        omega
      have htake1 : (g.expressions.take (id + 1)).map (·.layout) = st.layouts ++ [info.layout] := by
        rw [List.take_succ, hid, List.map_append, ← hlay]
        rfl
      have hrange : List.range' id (info :: rest').length
          = id :: List.range' (id + 1) rest'.length := by
        rw [List.length_cons]
        exact List.range'_succ id rest'.length 1
      rw [compileLoop_cons] at hloop
      cases hbody : info.expression with
      | varTensor l inp =>
          rw [compileNode_eq_var wgx g.lastUsages id info st l inp hbody] at hloop
          rw [Option.some_bind] at hloop
          rcases ih (id + 1) _ st' hdrop' htake1.symm hloop with ⟨h1, h2, h3⟩
          have halias : g.aliasOf id = id := g.aliasOf_nonmovement id info hid
            (by intro m ch2 hcon; rw [hbody] at hcon; exact absurd hcon (by simp))
          have hblock := g.blockOf_var wgx id info l inp hid hbody
          refine ⟨?_, ?_, ?_⟩
          · rw [h1]; simp
          · rw [h2, hrange]; simp [halias]
          · rw [h3, hrange]; simp [hblock]
      | constTensor t =>
          rw [compileNode_eq_const wgx g.lastUsages id info st t hbody] at hloop
          rw [Option.some_bind] at hloop
          rcases ih (id + 1) _ st' hdrop' htake1.symm hloop with ⟨h1, h2, h3⟩
          have halias : g.aliasOf id = id := g.aliasOf_nonmovement id info hid
            (by intro m ch2 hcon; rw [hbody] at hcon; exact absurd hcon (by simp))
          have hblock := g.blockOf_const wgx id info t hid hbody
          refine ⟨?_, ?_, ?_⟩
          · rw [h1]; simp
          · rw [h2, hrange]; simp [halias]
          · rw [h3, hrange]; simp [hblock]
      | op o ch =>
          cases o with
          | movement m =>
              rw [compileNode_eq_movement wgx g.lastUsages id info st m ch hbody] at hloop
              cases hc0 : ch[0]? with
              | none => rw [hc0] at hloop; exact absurd hloop (by simp)
              | some c0 =>
                  rw [hc0] at hloop
                  rw [Option.map_some', Option.some_bind] at hloop
                  rcases ih (id + 1) _ st' hdrop' htake1.symm hloop with ⟨h1, h2, h3⟩
                  have halias : g.aliasOf id = c0 := by
                    rw [g.aliasOf_movement id info m ch hid hbody]
                    exact headD_of_getElem?_zero ch c0 id hc0
                  have hblock := g.blockOf_movement wgx id info m ch hid hbody
                  refine ⟨?_, ?_, ?_⟩
                  · rw [h1]; simp
                  · rw [h2, hrange]; simp [halias]
                  · rw [h3, hrange]; simp [hblock]
          | reduce r rd =>
              rw [compileNode_eq_reduce wgx g.lastUsages id info st r rd ch hbody] at hloop
              exact absurd hloop (by simp)
          | elemwise e =>
              rw [compileNode_eq_elemwise wgx g.lastUsages id info st e ch hbody] at hloop
              cases hm : mapOption (fun c => st.layouts[c]?) ch with
              | none => rw [hm] at hloop; exact absurd hloop (by simp)
              | some cls =>
                  rw [hm] at hloop
                  simp only [Option.some_bind] at hloop
                  cases hctx : kernelElemwiseCtx wgx info.layout (ch.zip cls) (wgpuExprFor e ch) with
                  | none => rw [hctx] at hloop; exact absurd hloop (by simp)
                  | some ctx =>
                      rw [hctx] at hloop
                      simp only [Option.some_bind] at hloop
                      have hch : ∀ c ∈ ch, c < id := by
                        intro c hc
                        rcases mapOption_some_of_mem _ ch cls hm c hc with ⟨b, hb2⟩
                        have hcl : c < st.layouts.length := (List.getElem?_eq_some_iff.mp hb2).1
                        omega
                      have hpoint : ∀ c ∈ ch, st.layouts[c]? = some (g.nodeLayout c) := by
                        intro c hc
                        have hcid : c < id := hch c hc
                        obtain ⟨infoC, hic⟩ : ∃ i0, g.expressions[c]? = some i0 :=
                          ⟨_, List.getElem?_eq_getElem (by omega)⟩
                        rw [hlay, List.getElem?_map]
                        rw [List.getElem?_take, if_pos (by omega), hic]
                        simp only [Graph.nodeLayout, hic, Option.map_some', Option.getD_some]
                      have hcls : cls = ch.map g.nodeLayout := by
                        have h4 := mapOption_eq_map _ _ ch hpoint
                        rw [hm] at h4
                        exact Option.some_inj.mp h4
                      rcases ih (id + 1) _ st' hdrop' htake1.symm hloop with ⟨h1, h2, h3⟩
                      have halias : g.aliasOf id = id := g.aliasOf_nonmovement id info hid
                        (by intro m ch2 hcon; rw [hbody] at hcon; exact absurd hcon (by simp))
                      have hblock := g.blockOf_elemwise wgx id info e ch hid hbody
                      have hexec : WgpuStep.execute id (renderElemwise ctx)
                          [divCeil (info.layout.elements % 4294967296) wgx, 1, 1] (id :: ch)
                          ((info.layout.size, false) :: cls.map (fun l => (l.size, true)))
                          = g.execStepOf wgx id e ch info.layout := by
                        simp only [Graph.execStepOf, ← hcls, hctx, Option.getD_some]
                      refine ⟨?_, ?_, ?_⟩
                      · rw [h1]; simp
                      · rw [h2, hrange]; simp [halias]
                      · rw [h3, hrange]
                        simp [hblock, ← hexec, List.append_assoc]

theorem removeAt_eq {α : Type} [Inhabited α] :
    ∀ (l : List α) (i : Nat), i < l.length →
      removeAt l i = some (l.getD i default, l.take i ++ l.drop (i + 1)) := by
  intro l
  induction l with
  | nil => intro i h; exact absurd h (by simp)
  | cons a t ih =>
      intro i h
      cases i with
      | zero => rfl
      | succ n =>
          rw [removeAt]
          rw [ih n (by simpa using h)]
          simp

theorem getD_removeAt_lt (layouts : List Layout) (o x : Nat) (ho : o < layouts.length)
    (hx : x < o) :
    (layouts.take o ++ layouts.drop (o + 1)).getD x default = layouts.getD x default := by
  rw [List.getD_eq_getElem?_getD, List.getD_eq_getElem?_getD]
  rw [List.getElem?_append, if_pos (by rw [List.length_take]; omega)]
  rw [List.getElem?_take, if_pos hx]

theorem collectOutputLayouts_desc (routs : List Nat) :
    ∀ (layouts : List Layout), List.Pairwise (· > ·) routs →
      (∀ o ∈ routs, o < layouts.length) →
      ∃ rest, collectOutputLayouts layouts routs
        = some (routs.map (fun o => layouts.getD o default), rest) := by
  induction routs with
  | nil => intro layouts _ _; exact ⟨layouts, rfl⟩
  | cons o os ih =>
      intro layouts hp hb
      have ho : o < layouts.length := hb o (List.mem_cons_self _ _)
      have hgt : ∀ x ∈ os, x < o := by
        intro x hx
        exact (List.pairwise_cons.mp hp).1 x hx
      have hlen' : (layouts.take o ++ layouts.drop (o + 1)).length = layouts.length - 1 := by
        rw [List.length_append, List.length_take, List.length_drop]
        omega
      have hb' : ∀ x ∈ os, x < (layouts.take o ++ layouts.drop (o + 1)).length := by
        intro x hx
        have h1 : x < o := hgt x hx
        omega
      rcases ih (layouts.take o ++ layouts.drop (o + 1)) (List.pairwise_cons.mp hp).2 hb'
        with ⟨rest, hrec⟩
      refine ⟨rest, ?_⟩
      rw [collectOutputLayouts]
      rw [removeAt_eq layouts o ho]
      simp only [Option.bind_eq_bind, Option.some_bind]
      rw [hrec]
      simp only [Option.some_bind, Option.some_inj]
      rw [List.map_cons]
      refine congrArg (fun z => (layouts.getD o default :: z, rest)) ?_
      apply List.map_congr_left
      intro x hx
      exact getD_removeAt_lt layouts o x ho (hgt x hx)

/-- Decompose a successful `compile` into its three phases. -/
theorem compile_decomp (wgx : Nat) (g : Graph) (plan : WgpuPlan)
    (h : WgpuCompiler.compile ⟨wgx⟩ g = some plan) :
    ∃ st pr outs,
      compileLoop wgx g.lastUsages 0 g.expressions ⟨[], [], []⟩ = some st ∧
      collectOutputLayouts st.layouts g.outputs.reverse = some pr ∧
      mapOption (fun o => st.aliases[o]?) g.outputs = some outs ∧
      plan = ⟨g.inputs, st.steps, outs, pr.1⟩ := by
  rw [WgpuCompiler.compile] at h
  simp only [Option.bind_eq_bind] at h
  rcases Option.bind_eq_some.mp h with ⟨st, h1, h2⟩
  rcases Option.bind_eq_some.mp h2 with ⟨pr, h3, h4⟩
  rcases Option.bind_eq_some.mp h4 with ⟨outs, h5, h6⟩
  simp only [Option.some_inj] at h6
  exact ⟨st, pr, outs, h1, h3, h5, h6.symm⟩

/-- The final loop state of a successful `compile`. -/
theorem compile_state (wgx : Nat) (g : Graph) (st : CompileState)
    (h : compileLoop wgx g.lastUsages 0 g.expressions ⟨[], [], []⟩ = some st) :
    st.layouts = g.expressions.map (·.layout) ∧
    st.aliases = (List.range' 0 g.expressions.length).map g.aliasOf ∧
    st.steps = ((List.range' 0 g.expressions.length).map (g.blockOf wgx)).join := by
  have hrun := compileLoop_run wgx g g.expressions 0 ⟨[], [], []⟩ st
    (by rw [List.drop_zero]) (by rfl) h
  simpa using hrun

/-- C3 (amended): for a plan emitted by `compile`, the `outputs` field
resolves each declared output (in declaration order, duplicates included)
to its recorded alias id; but `output_layouts` — one post-movement layout
per declared output — is collected in **reverse** declaration order, and
the reverse-order `Vec::remove` collection is only faithful when the
declared output ids are strictly increasing (duplicate or out-of-order
declarations shift later removals or fault). -/
theorem compile_outputs (wgx : Nat) (g : Graph) (plan : WgpuPlan)
    (h : WgpuCompiler.compile ⟨wgx⟩ g = some plan)
    (hsort : List.Pairwise (· < ·) g.outputs)
    (hbound : ∀ o ∈ g.outputs, o < g.expressions.length) :
    plan.outputLayouts = (g.outputs.map g.nodeLayout).reverse ∧
    plan.outputs = g.outputs.map g.aliasOf := by
  rcases compile_decomp wgx g plan h with ⟨st, pr, outs, h1, h2, h3, h4⟩
  rcases compile_state wgx g st h1 with ⟨hlay, hal, _⟩
  have hdesc : List.Pairwise (· > ·) g.outputs.reverse := by
    rw [List.pairwise_reverse]
    exact hsort
  have hboundr : ∀ o ∈ g.outputs.reverse, o < st.layouts.length := by
    intro o hor
    rw [hlay, List.length_map]
    exact hbound o (List.mem_reverse.mp hor)
  rcases collectOutputLayouts_desc g.outputs.reverse st.layouts hdesc hboundr
    with ⟨rest, hcoll⟩
  rw [hcoll] at h2
  have hpr : pr = (g.outputs.reverse.map (fun o => st.layouts.getD o default), rest) :=
    (Option.some_inj.mp h2).symm
  have hgetD : ∀ o ∈ g.outputs.reverse, st.layouts.getD o default = g.nodeLayout o := by
    intro o hob
    rw [hlay, List.getD_eq_getElem?_getD, List.getElem?_map, Graph.nodeLayout]
  have halias : ∀ o ∈ g.outputs, st.aliases[o]? = some (g.aliasOf o) := by
    intro o hob
    rw [hal, List.getElem?_map]
    rw [List.getElem?_range' _ _ (hbound o hob)]
    simp
  have h3' := mapOption_eq_map _ _ g.outputs halias
  rw [h3'] at h3
  have houts : outs = g.outputs.map g.aliasOf := (Option.some_inj.mp h3).symm
  rw [h4]
  constructor
  · show pr.1 = _
    rw [hpr]
    show g.outputs.reverse.map _ = _
    rw [← List.map_reverse]
    exact List.map_congr_left hgetD
  · exact houts

/-- C3 witness: the amended output facts at the two-input graph. -/
theorem compile_outputs_witness :
    WgpuCompiler.compile ⟨256⟩ ((build c3steps).getD Graph.new)
      = some ((WgpuCompiler.compile ⟨256⟩ ((build c3steps).getD Graph.new)).get (by rfl)) ∧
    List.Pairwise (· < ·) ((build c3steps).getD Graph.new).outputs ∧
    (∀ o ∈ ((build c3steps).getD Graph.new).outputs,
      o < ((build c3steps).getD Graph.new).expressions.length) ∧
    (((WgpuCompiler.compile ⟨256⟩ ((build c3steps).getD Graph.new)).get (by rfl)).outputLayouts
        = (((build c3steps).getD Graph.new).outputs.map
            ((build c3steps).getD Graph.new).nodeLayout).reverse ∧
     ((WgpuCompiler.compile ⟨256⟩ ((build c3steps).getD Graph.new)).get (by rfl)).outputs
        = ((build c3steps).getD Graph.new).outputs.map ((build c3steps).getD Graph.new).aliasOf) :=
  ⟨(Option.some_get _).symm, by decide, by decide,
   compile_outputs 256 _ _ (Option.some_get _).symm (by decide) (by decide)⟩

/-! ## Totality of compile (C6) -/

/-- A graph built through the public API with a `Reduce` node: the claim's
"well-formed Graph whose ops are drawn from the declared op families". -/
def c6steps : List BuildStep :=
  [.input (Layout.ofDims [2, 3]), .op (.reduce .sum [0]) [0], .output 1]

/-- The per-node condition under which `WgpuCompiler::compile` can lower an
op node without faulting: `Add`/`Mul` need at least the two children the
rendered operand expression indexes (`children[0]`, `children[1]`), `Sin`
renders any child list, a movement op needs the `children[0]` it aliases,
and a `Reduce` node has no lowering at all (`todo!()`). -/
def ExprBody.lowerable : ExprBody → Bool
  | .op (.elemwise .add) ch => decide (2 ≤ ch.length)
  | .op (.elemwise .mul) ch => decide (2 ≤ ch.length)
  | .op (.elemwise .sin) _ => true
  | .op (.reduce _ _) _ => false
  | .op (.movement _) ch => decide (ch ≠ [])
  | .varTensor _ _ => true
  | .constTensor _ => true

/-- Every node of the graph is lowerable by the wgpu backend. -/
def Graph.lowerable (g : Graph) : Bool :=
  g.expressions.all (fun info => info.expression.lowerable)

theorem renderList_newVars (ch : List Nat) :
    WgpuExpr.renderList (ch.map (fun c => WgpuExpr.newVar s!"elem_input_{c}"))
      = some (ch.map (fun c => s!"elem_input_{c}")) := by
  induction ch with
  | nil => rfl
  | cons c t ih =>
      rw [List.map_cons, WgpuExpr.renderList, ih]
      rfl

theorem wgpuExprFor_render_isSome (e : ElemwiseOp) (ch : List Nat)
    (h : e = .sin ∨ 2 ≤ ch.length) :
    (wgpuExprFor e ch).render.isSome = true := by
  cases e with
  | sin =>
      rw [wgpuExprFor]
      show (WgpuExpr.render (.mk .sin _)).isSome = true
      rw [WgpuExpr.render, renderList_newVars]
      rfl
  | add =>
      rcases h with h | h
      · exact absurd h (by decide)
      · rcases ch with _ | ⟨c1, _ | ⟨c2, t⟩⟩
        · simp at h
        · simp at h
        · rfl
  | mul =>
      rcases h with h | h
      · exact absurd h (by decide)
      · rcases ch with _ | ⟨c1, _ | ⟨c2, t⟩⟩
        · simp at h
        · simp at h
        · rfl

theorem compileLoop_total (wgx : Nat) (g : Graph) (inv : GraphInv g)
    (hlow : g.lowerable = true) :
    ∀ (rest : List ExprInfo) (id : Nat) (st : CompileState),
      g.expressions.drop id = rest →
      st.layouts = (g.expressions.take id).map (·.layout) →
      (compileLoop wgx g.lastUsages id rest st).isSome = true := by
  have hall : ∀ info ∈ g.expressions, info.expression.lowerable = true := by
    rw [Graph.lowerable] at hlow
    exact fun info h => List.all_eq_true.mp hlow info h
  intro rest
  induction rest with
  | nil =>
      intro id st _ _
      rw [compileLoop_nil]
      rfl
  | cons info rest' ih =>
      intro id st hdrop hlay
      have hid : g.expressions[id]? = some info := by
        have h0 : (g.expressions.drop id)[0]? = some info := by rw [hdrop]; simp
        rw [List.getElem?_drop] at h0
        simpa using h0
      have hidlt : id < g.expressions.length := (List.getElem?_eq_some_iff.mp hid).1
      have hdrop' : g.expressions.drop (id + 1) = rest' := by
        have ht : (g.expressions.drop id).tail = g.expressions.drop (id + 1) :=
          List.tail_drop g.expressions id
        rw [← ht, hdrop]
        rfl
      have hlaylen : st.layouts.length = id := by
        rw [hlay, List.length_map, List.length_take]
        omega
      have htake1 : (g.expressions.take (id + 1)).map (·.layout) = st.layouts ++ [info.layout] := by
        rw [List.take_succ, hid, List.map_append, ← hlay]
        rfl
      have hmem : info ∈ g.expressions := by
        rcases List.getElem?_eq_some_iff.mp hid with ⟨hlt, heq⟩
        exact heq ▸ List.getElem_mem hlt
      have hl := hall info hmem
      rw [compileLoop_cons]
      cases hbody : info.expression with
      | varTensor l inp =>
          rw [compileNode_eq_var wgx g.lastUsages id info st l inp hbody, Option.some_bind]
          exact ih (id + 1) _ hdrop' htake1.symm
      | constTensor t =>
          rw [compileNode_eq_const wgx g.lastUsages id info st t hbody, Option.some_bind]
          exact ih (id + 1) _ hdrop' htake1.symm
      | op o ch =>
          cases o with
          | movement m =>
              rw [compileNode_eq_movement wgx g.lastUsages id info st m ch hbody]
              have hne : ch ≠ [] := by
                rw [hbody] at hl
                simpa [ExprBody.lowerable] using hl
              cases ch with
              | nil => exact absurd rfl hne
              | cons c0 cs =>
                  rw [show ((c0 :: cs)[0]? : Option Nat) = some c0 from by simp,
                    Option.map_some', Option.some_bind]
                  exact ih (id + 1) _ hdrop' htake1.symm
          | reduce r rd =>
              rw [hbody] at hl
              simp [ExprBody.lowerable] at hl
          | elemwise e =>
              rw [compileNode_eq_elemwise wgx g.lastUsages id info st e ch hbody]
              have hr : ∀ c ∈ ch, c < st.layouts.length := by
                intro c hc
                rw [hlaylen]
                exact inv.topo id info hid (.elemwise e) ch hbody c hc
              have hml : mapOption (fun c => st.layouts[c]?) ch
                  = some (ch.map (fun c => st.layouts.getD c default)) := by
                apply mapOption_eq_map
                intro c hc
                rw [List.getD_eq_getElem?_getD, List.getElem?_eq_getElem (hr c hc)]
                rfl
              rw [hml, Option.some_bind]
              have hrender : (wgpuExprFor e ch).render.isSome = true := by
                apply wgpuExprFor_render_isSome
                cases e with
                | sin => exact Or.inl rfl
                | add =>
                    right
                    rw [hbody] at hl
                    simpa [ExprBody.lowerable] using hl
                | mul =>
                    right
                    rw [hbody] at hl
                    simpa [ExprBody.lowerable] using hl
              rcases Option.isSome_iff_exists.mp hrender with ⟨s, hs⟩
              rw [kernelElemwiseCtx, hs, Option.map_some', Option.some_bind, Option.some_bind]
              exact ih (id + 1) _ hdrop' htake1.symm

/-- C6 (counterexample): a graph with a `Reduce` node builds fine through the
public API — its ops are drawn from the declared families — yet `compile`
faults (`Op::Reduce(_) => todo!()`): there is no plan and no recoverable
`UnsupportedOperation` error value, contradicting totality over well-formed
graphs. -/
theorem compile_reduce_faults_cx :
    (build c6steps).isSome = true ∧
    (build c6steps).bind WgpuCompiler.default.compile = none :=
  ⟨rfl, rfl⟩

/-- C6 (amended): `compile` is pure (a function of the graph alone) but not
total over well-formed graphs: a `Reduce` node makes it fault (`todo!()`)
with no `UnsupportedOperation` error channel.  It does return a plan without
faulting for every graph built through the public construction API in which
every `Add`/`Mul` node has at least two children, every movement node has a
child, and no `Reduce` occurs (`Graph.lowerable`), provided the declared
outputs are strictly increasing and in range (see the C3 analysis for how
the output-layout collection faults otherwise). -/
theorem compile_total (wgx : Nat) (bs : List BuildStep) (g : Graph)
    (hb : build bs = some g) (hlow : g.lowerable = true)
    (hsort : List.Pairwise (· < ·) g.outputs)
    (hbound : ∀ o ∈ g.outputs, o < g.expressions.length) :
    (WgpuCompiler.compile ⟨wgx⟩ g).isSome = true := by
  have inv := build_inv bs g hb
  have hloopS : (compileLoop wgx g.lastUsages 0 g.expressions ⟨[], [], []⟩).isSome = true :=
    compileLoop_total wgx g inv hlow g.expressions 0 ⟨[], [], []⟩ (by rw [List.drop_zero]) rfl
  rcases Option.isSome_iff_exists.mp hloopS with ⟨st, hst⟩
  rcases compile_state wgx g st hst with ⟨hlay, hal, _⟩
  have hdesc : List.Pairwise (· > ·) g.outputs.reverse := by
    rw [List.pairwise_reverse]
    exact hsort
  have hboundr : ∀ o ∈ g.outputs.reverse, o < st.layouts.length := by
    intro o hor
    rw [hlay, List.length_map]
    exact hbound o (List.mem_reverse.mp hor)
  rcases collectOutputLayouts_desc g.outputs.reverse st.layouts hdesc hboundr with ⟨rest, hcoll⟩
  have halias : ∀ o ∈ g.outputs, st.aliases[o]? = some (g.aliasOf o) := by
    intro o hob
    rw [hal, List.getElem?_map, List.getElem?_range' _ _ (hbound o hob)]
    simp
  have houts := mapOption_eq_map _ _ g.outputs halias
  rw [WgpuCompiler.compile]
  simp only [Option.bind_eq_bind]
  rw [hst, Option.some_bind, hcoll, Option.some_bind, houts, Option.some_bind]
  rfl

/-- C6 witness: the amended totality theorem evaluated on the two-input
add graph. -/
theorem compile_total_witness :
    build c8steps = some ((build c8steps).getD Graph.new) ∧
    ((build c8steps).getD Graph.new).lowerable = true ∧
    List.Pairwise (· < ·) ((build c8steps).getD Graph.new).outputs ∧
    (∀ o ∈ ((build c8steps).getD Graph.new).outputs,
      o < ((build c8steps).getD Graph.new).expressions.length) ∧
    (WgpuCompiler.compile ⟨256⟩ ((build c8steps).getD Graph.new)).isSome = true :=
  ⟨rfl, rfl, by decide, by decide,
   compile_total 256 c8steps _ rfl rfl (by decide) (by decide)⟩

/-! ## Deallocation discipline (C1) -/

/-- C1 (counterexample): in the compiled plan for input → squeeze → sin,
node 0 is not a declared output, yet the plan contains **zero**
`Deallocate(0)` steps — its final read is the Movement node 1, whose
`continue` skips the deallocate-emission loop, so "a child whose final read
is a Movement op is also deallocated" fails, as does "exactly one
Deallocate step for every non-output node". -/
theorem dealloc_movement_skipped_cx :
    ((build c5steps).bind WgpuCompiler.default.compile).map
        (fun plan => plan.steps.countP (WgpuStep.isDeallocOf 0)) = some 0 ∧
    (0 : Nat) ∉ ((build c5steps).getD Graph.new).outputs :=
  ⟨rfl, by decide⟩

/-- The number of occurrences of `c` among the children of node `u`, when
`u` is an elemwise Op node (and 0 otherwise) — the multiplicity with which
`compile`'s deallocate loop at `u` frees `c`. -/
def Graph.elemwiseChildCount (g : Graph) (c u : Nat) : Nat :=
  match g.expressions[u]? with
  | some info =>
      match info.expression with
      | .op (.elemwise _) ch => ch.count c
      | _ => 0
  | none => 0

theorem natSum_eq_zero (l : List Nat) (h : ∀ x ∈ l, x = 0) : l.sum = 0 := by
  induction l with
  | nil => rfl
  | cons a t ih =>
      rw [List.sum_cons, h a (List.mem_cons_self _ _),
        ih (fun x hx => h x (List.mem_cons_of_mem _ hx))]

theorem sum_map_ite_zero (l : List Nat) (V : Nat) (f : Nat → Nat) (hV : V ∉ l) :
    (l.map (fun u => if V = u then f u else 0)).sum = 0 := by
  apply natSum_eq_zero
  intro x hx
  rcases List.mem_map.mp hx with ⟨u, hu, hxu⟩
  rw [← hxu, if_neg]
  intro he
  exact hV (he ▸ hu)

theorem sum_map_ite (l : List Nat) (V : Nat) (f : Nat → Nat) (hl : l.Nodup) :
    (l.map (fun u => if V = u then f u else 0)).sum = if V ∈ l then f V else 0 := by
  induction l with
  | nil => simp
  | cons u t ih =>
      rw [List.map_cons, List.sum_cons]
      rcases List.nodup_cons.mp hl with ⟨hu, ht⟩
      by_cases he : V = u
      · rw [if_pos he, sum_map_ite_zero t V f (by rw [he]; exact hu)]
        rw [if_pos (by rw [he]; exact List.mem_cons_self _ _), ← he]
        omega
      · rw [if_neg he, ih ht]
        by_cases hm : V ∈ t
        · rw [if_pos hm, if_pos (List.mem_cons_of_mem _ hm)]
          omega
        · rw [if_neg hm, if_neg (by
            intro hvc
            rcases List.mem_cons.mp hvc with h1 | h1
            · exact he h1
            · exact hm h1)]

theorem foldl_max_mem (u : Nat) (us : List Nat) : us.foldl Nat.max u ∈ u :: us := by
  induction us generalizing u with
  | nil => simp
  | cons x t ih =>
      rw [List.foldl_cons]
      rcases List.mem_cons.mp (ih (Nat.max u x)) with h | h
      · rw [h]
        rcases Nat.le_total u x with hle | hle
        · have hmx : Nat.max u x = x := Nat.max_eq_right hle
          rw [hmx]
          exact List.mem_cons_of_mem _ (List.mem_cons_self _ _)
        · have hmx : Nat.max u x = u := Nat.max_eq_left hle
          rw [hmx]
          exact List.mem_cons_self _ _
      · exact List.mem_cons_of_mem _ (List.mem_cons_of_mem _ h)

theorem lastUsage_mem_keys (c : Nat) (info : ExprInfo) (hne : info.lastUsage c ≠ c) :
    info.lastUsage c ∈ info.usages.map Prod.fst := by
  cases hk : info.usages.map Prod.fst with
  | nil =>
      have h1 : info.lastUsage c = c := by simp only [ExprInfo.lastUsage, hk]
      exact absurd h1 hne
  | cons u us =>
      have h1 : info.lastUsage c = us.foldl Nat.max u := by simp only [ExprInfo.lastUsage, hk]
      have h2 := foldl_max_mem u us
      rw [← h1] at h2
      exact h2

theorem Graph.lastUsages_getD (g : Graph) (c d : Nat) (info : ExprInfo)
    (h : g.expressions[c]? = some info) :
    g.lastUsages.getD c d = info.lastUsage c := by
  rw [List.getD_eq_getElem?_getD, Graph.lastUsages_getElem g c info h]
  rfl

theorem elemwiseChildCount_self (g : Graph) (inv : GraphInv g) (c : Nat) :
    g.elemwiseChildCount c c = 0 := by
  cases hid : g.expressions[c]? with
  | none => simp only [Graph.elemwiseChildCount, hid]
  | some info =>
      cases hbody : info.expression with
      | varTensor l inp => simp only [Graph.elemwiseChildCount, hid, hbody]
      | constTensor t => simp only [Graph.elemwiseChildCount, hid, hbody]
      | op o ch =>
          cases o with
          | movement m => simp only [Graph.elemwiseChildCount, hid, hbody]
          | reduce r rd => simp only [Graph.elemwiseChildCount, hid, hbody]
          | elemwise e =>
              simp only [Graph.elemwiseChildCount, hid, hbody]
              apply List.count_eq_zero_of_not_mem
              intro hm
              have := inv.topo c info hid (.elemwise e) ch hbody c hm
              omega

theorem blockOf_countP_dealloc (g : Graph) (wgx c u : Nat) :
    (g.blockOf wgx u).countP (WgpuStep.isDeallocOf c)
      = if g.lastUsages.getD c 0 = u then g.elemwiseChildCount c u else 0 := by
  cases hid : g.expressions[u]? with
  | none =>
      simp only [Graph.blockOf, Graph.elemwiseChildCount, hid]
      simp
  | some info =>
      cases hbody : info.expression with
      | varTensor l inp =>
          simp only [Graph.blockOf, Graph.elemwiseChildCount, hid, hbody]
          simp
      | constTensor t =>
          simp only [Graph.blockOf, Graph.elemwiseChildCount, hid, hbody]
          simp [WgpuStep.isDeallocOf, List.countP_cons]
      | op o ch =>
          cases o with
          | movement m =>
              simp only [Graph.blockOf, Graph.elemwiseChildCount, hid, hbody]
              simp
          | reduce r rd =>
              simp only [Graph.blockOf, Graph.elemwiseChildCount, hid, hbody]
              simp
          | elemwise e =>
              simp only [Graph.blockOf, Graph.elemwiseChildCount, hid, hbody]
              rw [List.countP_cons]
              have h1 : WgpuStep.isDeallocOf c (g.execStepOf wgx u e ch info.layout) = false := rfl
              rw [h1, List.countP_map]
              show (ch.filter (fun x => g.lastUsages.getD x 0 == u)).count c + _ = _
              by_cases hq : g.lastUsages.getD c 0 = u
              · rw [if_pos hq, List.count_filter (by simp only [beq_iff_eq]; exact hq)]
                simp
              · rw [if_neg hq, List.count_eq_zero_of_not_mem (by
                  intro hm
                  rcases List.mem_filter.mp hm with ⟨_, h2⟩
                  exact hq (by simpa only [beq_iff_eq] using h2))]
                simp

theorem blockOf_countP_producer (g : Graph) (wgx c u : Nat) (hne : u ≠ c) :
    (g.blockOf wgx u).countP (WgpuStep.isProducerOf c) = 0 := by
  cases hid : g.expressions[u]? with
  | none => simp only [Graph.blockOf, hid]; rfl
  | some info =>
      cases hbody : info.expression with
      | varTensor l inp => simp only [Graph.blockOf, hid, hbody]; rfl
      | constTensor t =>
          simp only [Graph.blockOf, hid, hbody]
          simp [List.countP_cons, WgpuStep.isProducerOf, hne]
      | op o ch =>
          cases o with
          | movement m => simp only [Graph.blockOf, hid, hbody]; rfl
          | reduce r rd => simp only [Graph.blockOf, hid, hbody]; rfl
          | elemwise e =>
              simp only [Graph.blockOf, hid, hbody]
              rw [List.countP_cons]
              have h1 : WgpuStep.isProducerOf c (g.execStepOf wgx u e ch info.layout) = false := by
                simp [Graph.execStepOf, WgpuStep.isProducerOf, hne]
              rw [h1]
              have h2 : ((ch.filter (fun x => g.lastUsages.getD x 0 == u)).map
                  WgpuStep.deallocate).countP (WgpuStep.isProducerOf c) = 0 := by
                apply List.countP_eq_zero.mpr
                intro a ha
                rcases List.mem_map.mp ha with ⟨x, _, hx⟩
                rw [← hx]
                simp [WgpuStep.isProducerOf]
              rw [h2]
              simp

/-- C1 (amended): in a plan compiled from a built graph, the number of
`Deallocate(c)` steps is not "exactly one for every non-output node" but
`deallocCountSpec`: the multiplicity of `c` among its recorded final
consumer's children when that consumer is a distinct elemwise Op node, and
zero otherwise — so a node whose final read is a Movement op, and a node
never consumed, are never freed (output or not), and a duplicated child is
freed once per occurrence.  When the count is nonzero the position claim
holds: the plan splits as `pre ++ exec-step :: deallocs ++ post` around the
final consumer's block, every `Deallocate(c)` lies in that run immediately
after the final consumer's `Execute`, and every step producing `c`'s buffer
lies in `pre`, strictly before all of them. -/
theorem compile_dealloc (wgx : Nat) (bs : List BuildStep) (g : Graph) (plan : WgpuPlan)
    (hb : build bs = some g) (h : WgpuCompiler.compile ⟨wgx⟩ g = some plan)
    (c : Nat) (hc : c < g.expressions.length) :
    plan.steps.countP (WgpuStep.isDeallocOf c) = g.deallocCountSpec c ∧
    (g.deallocCountSpec c ≠ 0 →
      ∃ pre ex ds post,
        plan.steps = pre ++ ex :: ds ++ post ∧
        ex.isExecOf (g.lastUsages.getD c c) = true ∧
        (∀ d ∈ ds, ∃ x, d = WgpuStep.deallocate x) ∧
        ds.countP (WgpuStep.isDeallocOf c) = g.deallocCountSpec c ∧
        pre.countP (WgpuStep.isDeallocOf c) = 0 ∧
        post.countP (WgpuStep.isDeallocOf c) = 0 ∧
        (ex :: ds ++ post).countP (WgpuStep.isProducerOf c) = 0) := by
  have inv := build_inv bs g hb
  rcases compile_decomp wgx g plan h with ⟨st, pr, outs, h1, _, _, h4⟩
  rcases compile_state wgx g st h1 with ⟨_, _, hsteps⟩
  obtain ⟨infoc, hidc⟩ : ∃ info, g.expressions[c]? = some info :=
    ⟨_, List.getElem?_eq_getElem hc⟩
  have hU : g.lastUsages.getD c c = infoc.lastUsage c := Graph.lastUsages_getD g c c infoc hidc
  have hU0 : g.lastUsages.getD c 0 = infoc.lastUsage c := Graph.lastUsages_getD g c 0 infoc hidc
  have hplansteps : plan.steps
      = ((List.range' 0 g.expressions.length).map (g.blockOf wgx)).flatten := by
    rw [h4]
    exact hsteps
  have hcount : plan.steps.countP (WgpuStep.isDeallocOf c)
      = if infoc.lastUsage c ∈ List.range' 0 g.expressions.length
        then g.elemwiseChildCount c (infoc.lastUsage c) else 0 := by
    rw [hplansteps]
    rw [List.countP_flatten]
    rw [List.map_map]
    rw [show (List.range' 0 g.expressions.length).map
          (List.countP (WgpuStep.isDeallocOf c) ∘ g.blockOf wgx)
        = (List.range' 0 g.expressions.length).map
            (fun u => if infoc.lastUsage c = u then g.elemwiseChildCount c u else 0) from
      List.map_congr_left (fun u _ => by
        show (g.blockOf wgx u).countP (WgpuStep.isDeallocOf c) = _
        rw [blockOf_countP_dealloc, hU0])]
    exact sum_map_ite _ _ _ (List.nodup_range' _ _)
  by_cases hself : infoc.lastUsage c = c
  · have hspec : g.deallocCountSpec c = 0 := by
      simp only [Graph.deallocCountSpec]
      rw [hU, if_pos hself]
    refine ⟨?_, fun hne0 => absurd hspec hne0⟩
    rw [hcount, hspec, hself, elemwiseChildCount_self g inv c]
    simp
  · have hkmem : infoc.lastUsage c ∈ infoc.usages.map Prod.fst :=
      lastUsage_mem_keys c infoc hself
    have hcc : g.childCount c (infoc.lastUsage c) ≠ 0 :=
      (inv.keysChar c infoc hidc _).mp hkmem
    have hUlt : infoc.lastUsage c < g.expressions.length := g.childCount_lt c _ hcc
    have hmemrange : infoc.lastUsage c ∈ List.range' 0 g.expressions.length := by
      rw [List.mem_range'_1]
      omega
    have hspec : g.deallocCountSpec c = g.elemwiseChildCount c (infoc.lastUsage c) := by
      simp only [Graph.deallocCountSpec]
      rw [hU, if_neg hself]
      rfl
    refine ⟨by rw [hcount, if_pos hmemrange, hspec], ?_⟩
    intro hne0
    cases hexp : g.expressions[infoc.lastUsage c]? with
    | none =>
        rw [hspec] at hne0
        simp only [Graph.elemwiseChildCount, hexp] at hne0
        exact absurd rfl hne0
    | some infoU =>
        cases hbodyU : infoU.expression with
        | varTensor l inp =>
            rw [hspec] at hne0
            simp only [Graph.elemwiseChildCount, hexp, hbodyU] at hne0
            exact absurd rfl hne0
        | constTensor t =>
            rw [hspec] at hne0
            simp only [Graph.elemwiseChildCount, hexp, hbodyU] at hne0
            exact absurd rfl hne0
        | op o ch =>
            cases o with
            | movement m =>
                rw [hspec] at hne0
                simp only [Graph.elemwiseChildCount, hexp, hbodyU] at hne0
                exact absurd rfl hne0
            | reduce r rd =>
                rw [hspec] at hne0
                simp only [Graph.elemwiseChildCount, hexp, hbodyU] at hne0
                exact absurd rfl hne0
            | elemwise e =>
                have hval : g.elemwiseChildCount c (infoc.lastUsage c) = ch.count c := by
                  simp only [Graph.elemwiseChildCount, hexp, hbodyU]
                have hcnt : ch.count c ≠ 0 := by
                  rw [hspec, hval] at hne0
                  exact hne0
                have hcmem : c ∈ ch := List.count_pos_iff.mp (Nat.pos_of_ne_zero hcnt)
                have e1 : g.expressions.length - infoc.lastUsage c
                    = (g.expressions.length - (infoc.lastUsage c + 1)) + 1 := by omega
                have h2 : List.range' 0 (infoc.lastUsage c)
                    ++ List.range' (infoc.lastUsage c)
                        (g.expressions.length - infoc.lastUsage c)
                    = List.range' 0 g.expressions.length := by
                  have h3 := List.range'_append_1 0 (infoc.lastUsage c)
                    (g.expressions.length - infoc.lastUsage c)
                  rw [Nat.zero_add] at h3
                  rw [h3]
                  congr 1
                  omega
                have hsplit : List.range' 0 g.expressions.length
                    = List.range' 0 (infoc.lastUsage c)
                      ++ infoc.lastUsage c
                        :: List.range' (infoc.lastUsage c + 1)
                             (g.expressions.length - (infoc.lastUsage c + 1)) := by
                  rw [← h2, e1, List.range'_succ]
                have hblockU := g.blockOf_elemwise wgx (infoc.lastUsage c) infoU e ch hexp hbodyU
                refine ⟨((List.range' 0 (infoc.lastUsage c)).map (g.blockOf wgx)).flatten,
                  g.execStepOf wgx (infoc.lastUsage c) e ch infoU.layout,
                  (ch.filter (fun x => g.lastUsages.getD x 0 == infoc.lastUsage c)).map
                    WgpuStep.deallocate,
                  ((List.range' (infoc.lastUsage c + 1)
                      (g.expressions.length - (infoc.lastUsage c + 1))).map
                    (g.blockOf wgx)).flatten,
                  ?_, ?_, ?_, ?_, ?_, ?_, ?_⟩
                · rw [hplansteps, hsplit, List.map_append, List.flatten_append, List.map_cons,
                    List.flatten_cons, hblockU]
                  simp [List.append_assoc]
                · rw [hU]
                  simp [Graph.execStepOf, WgpuStep.isExecOf]
                · intro d hd
                  rcases List.mem_map.mp hd with ⟨x, _, hx⟩
                  exact ⟨x, hx.symm⟩
                · rw [List.countP_map]
                  show (ch.filter (fun x => g.lastUsages.getD x 0 == infoc.lastUsage c)).count c
                    = g.deallocCountSpec c
                  rw [List.count_filter (by simp only [beq_iff_eq]; exact hU0), hspec, hval]
                · rw [List.countP_flatten, List.map_map]
                  apply natSum_eq_zero
                  intro x hx
                  rcases List.mem_map.mp hx with ⟨u, hu, hxu⟩
                  rw [← hxu]
                  show (g.blockOf wgx u).countP (WgpuStep.isDeallocOf c) = 0
                  rw [blockOf_countP_dealloc, hU0, if_neg]
                  have hub := (List.mem_range'_1.mp hu).2
                  omega
                · rw [List.countP_flatten, List.map_map]
                  apply natSum_eq_zero
                  intro x hx
                  rcases List.mem_map.mp hx with ⟨u, hu, hxu⟩
                  rw [← hxu]
                  show (g.blockOf wgx u).countP (WgpuStep.isDeallocOf c) = 0
                  rw [blockOf_countP_dealloc, hU0, if_neg]
                  have hub := (List.mem_range'_1.mp hu).1
                  omega
                · have hcU : c < infoc.lastUsage c :=
                    inv.topo (infoc.lastUsage c) infoU hexp (.elemwise e) ch hbodyU c hcmem
                  have hx1 : WgpuStep.isProducerOf c
                      (g.execStepOf wgx (infoc.lastUsage c) e ch infoU.layout) = false := by
                    simp only [Graph.execStepOf, WgpuStep.isProducerOf, beq_eq_false_iff_ne, ne_eq]
                    omega
                  have hx2 : ((ch.filter
                      (fun x => g.lastUsages.getD x 0 == infoc.lastUsage c)).map
                      WgpuStep.deallocate).countP (WgpuStep.isProducerOf c) = 0 := by
                    apply List.countP_eq_zero.mpr
                    intro a ha
                    rcases List.mem_map.mp ha with ⟨x, _, hx⟩
                    rw [← hx]
                    simp [WgpuStep.isProducerOf]
                  have hx3 : (((List.range' (infoc.lastUsage c + 1)
                        (g.expressions.length - (infoc.lastUsage c + 1))).map
                        (g.blockOf wgx)).flatten).countP (WgpuStep.isProducerOf c) = 0 := by
                    rw [List.countP_flatten, List.map_map]
                    apply natSum_eq_zero
                    intro x hx
                    rcases List.mem_map.mp hx with ⟨u, hu, hxu⟩
                    rw [← hxu]
                    show (g.blockOf wgx u).countP (WgpuStep.isProducerOf c) = 0
                    apply blockOf_countP_producer
                    have hub := (List.mem_range'_1.mp hu).1
                    omega
                  rw [List.countP_append, List.countP_cons, hx1, hx2, hx3]
                  simp

/-- C1 witness: the dealloc-count and placement theorem evaluated at node 0
of the two-input add graph. -/
theorem compile_dealloc_witness :
    build c8steps = some ((build c8steps).getD Graph.new) ∧
    0 < ((build c8steps).getD Graph.new).expressions.length ∧
    (((WgpuCompiler.compile ⟨256⟩ ((build c8steps).getD Graph.new)).get (by rfl)).steps.countP
        (WgpuStep.isDeallocOf 0)
      = ((build c8steps).getD Graph.new).deallocCountSpec 0 ∧
     (((build c8steps).getD Graph.new).deallocCountSpec 0 ≠ 0 →
      ∃ pre ex ds post,
        ((WgpuCompiler.compile ⟨256⟩ ((build c8steps).getD Graph.new)).get (by rfl)).steps
          = pre ++ ex :: ds ++ post ∧
        ex.isExecOf (((build c8steps).getD Graph.new).lastUsages.getD 0 0) = true ∧
        (∀ d ∈ ds, ∃ x, d = WgpuStep.deallocate x) ∧
        ds.countP (WgpuStep.isDeallocOf 0)
          = ((build c8steps).getD Graph.new).deallocCountSpec 0 ∧
        pre.countP (WgpuStep.isDeallocOf 0) = 0 ∧
        post.countP (WgpuStep.isDeallocOf 0) = 0 ∧
        (ex :: ds ++ post).countP (WgpuStep.isProducerOf 0) = 0)) :=
  ⟨rfl, by decide,
   compile_dealloc 256 c8steps ((build c8steps).getD Graph.new)
     ((WgpuCompiler.compile ⟨256⟩ ((build c8steps).getD Graph.new)).get (by rfl))
     rfl (Option.some_get _).symm 0 (by decide)⟩

end Momentum
